import Mathlib

/-!
Verification of the Fish belief engine (`src/engine.rs`)

A shallow embedding of the belief engine of the Fish card game repository.
Cards are dense integers; a card `c` has the single-bit mask `1 <<< c` and
belongs to book `c / 6` whose mask covers the six cards `6*(c/6) .. 6*(c/6)+5`.
The engine keeps a list of `Slot`s (a `possible` bitset over card ids, an
`owner` player index, and a `dirty` flag) and reacts to game events
(request success, request failure, declaration) by narrowing slots,
propagating with a Hall-set worklist (`prune`), and recomputing a decision
(`update_request`).

Machine integers: the Rust code works on `u64` bitsets.  We model them as
`Nat` and model the `u64` complement `!x` as `x ^^^ (2 ^ 64 - 1)`, which
agrees with Rust on all values `< 2 ^ 64`; theorems that need the `u64`
range bound state it explicitly.  Code paths that panic in Rust
(`unwrap`, `panic!`, `Ratio::new` with a zero denominator, `Card::book`
on an id `≥ 54`) are modelled with `Option`, `none` standing for a panic.

The random tie-break `rand::random_bool(1.0/2.0)` in `update_request` is
modelled by an explicit stream of coins `Nat → Bool` consumed in call
order.
-/

namespace Fish

/-- All 64 bits set: the `u64` value `u64::MAX`. -/
def ones64 : Nat := 2 ^ 64 - 1

/-- `u64` bitwise complement (`!x` in Rust), faithful for `x < 2 ^ 64`. -/
def not64 (x : Nat) : Nat := x ^^^ ones64

/-- Fuelled helper for `popCount`; `fuel ≥ n` makes it count all bits of
`n` (halving reaches `0` in at most `n` steps). -/
def popCountAux : Nat → Nat → Nat
  | 0, _ => 0
  | fuel + 1, n => if n = 0 then 0 else popCountAux fuel (n / 2) + n % 2

/-- Number of set bits — `u64::count_ones` of the Rust code. -/
def popCount (n : Nat) : Nat := popCountAux n n

/-- Fuelled helper for `ctz`. -/
def ctzAux : Nat → Nat → Nat
  | 0, _ => 64
  | fuel + 1, n => if n = 0 then 64 else if n % 2 = 1 then 0 else ctzAux fuel (n / 2) + 1

/-- Number of trailing zero bits — `u64::trailing_zeros`; `64` on input `0`. -/
def ctz (n : Nat) : Nat := ctzAux n n

/-- `Card::mask`: the singleton bitmask `1 << num` of card `c`. -/
def card_mask (c : Nat) : Nat := 1 <<< c

/-- `Card::book` as an index: card `c` belongs to book `c / 6`.  (The Rust
`Card::book` panics for `c ≥ 54`; every use below happens at ids `< 54`,
which callers ensure via `Option` plumbing or range hypotheses.) -/
def book_of (c : Nat) : Nat := c / 6

/-- `Book::mask`: book `b` covers the six cards `6*b .. 6*b+5`, so its mask
is `0b111111 <<< (6*b)` — the OR of its members' singleton masks. -/
def book_mask (b : Nat) : Nat := 63 <<< (6 * b)

/-- A belief slot: one physical card position (`src/engine.rs`, `struct Slot`). -/
structure Slot where
  possible : Nat
  owner : Nat
  dirty : Bool
deriving DecidableEq, Repr

/-- The decision output (`src/engine.rs`, `enum EventRequest`).  The guess
map of a declaration is an association list from team player index to the
set of guessed card ids (the Rust `HashMap<usize, HashSet<Card>>`). -/
inductive EventRequest where
  | ask (askee : Nat) (card : Nat)
  | declare (book : Nat) (guessed_cards : List (Nat × Finset Nat))
  | none
deriving DecidableEq

/-- The belief engine state (`src/engine.rs`, `struct Engine`). -/
structure Engine where
  num_players : Nat
  num_cards : Nat
  player_idx : Nat
  slots : List Slot
  request : EventRequest
deriving DecidableEq

/-- A game event as seen by `Engine::update`.  A declaration carries the
ground-truth card sets per player as an association list (the Rust
`HashMap<usize, HashSet<Card>>`; iteration order of the hash map is
arbitrary, so it is taken here as an explicit list). -/
inductive Event where
  | ask (asker askee : Nat) (card : Nat) (success : Bool)
  | declare (book : Nat) (actual_cards : List (Nat × List Nat))
deriving DecidableEq, Repr

/-- The fold computing `default_mask` in `Engine::init`: starts from the
all-cards mask and XORs out every hand card's singleton mask. -/
def default_mask (num_cards : Nat) (cards : List Nat) : Nat :=
  cards.foldl (fun acc c => acc ^^^ card_mask c) ((1 <<< num_cards) - 1)

/-- The slot-building loop of `Engine::init`: slot `i` gets owner
`i / (num_cards / num_players)`; a slot owned by `player` consumes the next
hand card (`cards.next().unwrap()` — `none` models the panic when the hand
is exhausted), every other slot gets `default_mask`. -/
def build_slots (num_players num_cards player dm : Nat) :
    List Nat → List Nat → Option (List Slot)
  | [], _ => some []
  | i :: is, hand =>
    let owner := i / (num_cards / num_players)
    if owner = player then
      match hand with
      | [] => Option.none
      | c :: hand' =>
        (build_slots num_players num_cards player dm is hand').map
          (Slot.mk (card_mask c) owner false :: ·)
    else
      (build_slots num_players num_cards player dm is hand).map
        (Slot.mk dm owner false :: ·)

/-- `Engine::init`. -/
def Engine.init (num_players num_cards player : Nat) (cards : List Nat) :
    Option Engine :=
  (build_slots num_players num_cards player (default_mask num_cards cards)
      (List.range num_cards) cards).map
    fun slots => ⟨num_players, num_cards, player, slots, EventRequest.none⟩

/-- Second loop of `Engine::has_book`: narrow the first slot owned by
`player` whose `possible` intersects the book mask to that intersection and
mark it dirty; `none` models the `panic!("No slot available to add book
constraint")` when no such slot exists. -/
def narrow_book (player bm : Nat) : List Slot → Option (List Slot)
  | [] => Option.none
  | s :: rest =>
    if s.owner = player ∧ s.possible &&& bm ≠ 0 then
      some ({ s with possible := s.possible &&& bm, dirty := true } :: rest)
    else
      (narrow_book player bm rest).map (s :: ·)

/-- `Engine::has_book` on the slot list: if some slot owned by `player` is
already confined to the book mask (`possible & !mask == 0`), return the
slots unchanged; otherwise narrow via `narrow_book`. -/
def has_book (slots : List Slot) (player b : Nat) : Option (List Slot) :=
  if slots.any fun s => s.owner = player && s.possible &&& not64 (book_mask b) = 0 then
    some slots
  else
    narrow_book player (book_mask b) slots

/-- `Iterator::position`: index of the first element satisfying `p`. -/
def find_idx (p : Slot → Bool) : List Slot → Option Nat
  | [] => Option.none
  | s :: rest => if p s then some 0 else (find_idx p rest).map (· + 1)

/-- `Engine::find_card`: index of the first slot owned by `player` whose
`possible` is exactly the card's singleton mask; else the first confined to
the card's book and containing the card; else the first containing the
card. -/
def find_card (slots : List Slot) (player c : Nat) : Option Nat :=
  (find_idx (fun s => s.owner == player && s.possible == card_mask c) slots) <|>
  (find_idx (fun s => s.owner == player &&
      s.possible &&& not64 (book_mask (book_of c)) == 0 &&
      s.possible &&& card_mask c != 0) slots) <|>
  (find_idx (fun s => s.owner == player && s.possible &&& card_mask c != 0) slots)

/-- `Engine::move_card`: reassign the found slot to `to` and resolve it to
the card's singleton mask; `none` models the `unwrap` panic. -/
def move_card (slots : List Slot) (from_ to_ c : Nat) : Option (List Slot) :=
  (find_card slots from_ c).map fun i =>
    slots.set i ⟨card_mask c, to_, true⟩

/-- `Engine::not_own_card`: clear the card's bit from every slot owned by
`player`, marking those slots dirty. -/
def not_own_card (slots : List Slot) (player c : Nat) : List Slot :=
  slots.map fun s =>
    if s.owner = player then
      { s with possible := s.possible &&& not64 (card_mask c), dirty := true }
    else s

/-- Hall-set narrowing inside one `prune` iteration: if the number of slots
whose `possible` equals `mask` matches the mask's popcount, remove the
mask's bits from every other overlapping slot, re-dirtying it. -/
def prune_hall (mask : Nat) (slots1 : List Slot) : List Slot :=
  if (slots1.countP fun t => t.possible == mask) = popCount mask then
    slots1.map fun t =>
      if t.possible ≠ mask ∧ t.possible &&& mask ≠ 0 then
        { t with possible := t.possible &&& not64 mask, dirty := true }
      else t
  else slots1

/-- One iteration of the `while let` worklist in `Engine::prune`: pick the
first dirty slot, clear its flag (its `possible` — the Hall mask — is read
before that), and apply `prune_hall`.  `none` means the loop guard failed
(no dirty slot — the loop exits). -/
def pruneStep (slots : List Slot) : Option (List Slot) :=
  match find_idx (·.dirty) slots with
  | Option.none => Option.none
  | some i =>
    some (prune_hall (slots.getD i ⟨0, 0, false⟩).possible
      (slots.set i { slots.getD i ⟨0, 0, false⟩ with dirty := false }))

/-- Fuelled iteration of `pruneStep`; once the worklist is empty the slot
list is returned unchanged at any remaining fuel. -/
def pruneGo : Nat → List Slot → List Slot
  | 0, slots => slots
  | n + 1, slots =>
    match pruneStep slots with
    | Option.none => slots
    | some s => pruneGo n s

/-- Total popcount of all slots' `possible` masks. -/
def sum_pop (slots : List Slot) : Nat :=
  (slots.map fun s => popCount s.possible).sum

/-- Number of dirty slots. -/
def dirty_count (slots : List Slot) : Nat := slots.countP (·.dirty)

/-- Fuel sufficient for `pruneGo` to reach the worklist fixpoint (proved in
`prune_fuel_reaches_fixpoint` below, for `u64`-ranged slots). -/
def prune_fuel (slots : List Slot) : Nat :=
  (slots.length + 1) * sum_pop slots + slots.length + 1

/-- `Engine::prune` as a total function: run the worklist to its fixpoint. -/
def prune (slots : List Slot) : List Slot := pruneGo (prune_fuel slots) slots

/-- Declaration handling, removal half: for each ground-truth card of
`player`, locate its slot with `find_card` and remove it (`none` models the
`unwrap` panic when no slot can be located, and the `Card::book` panic on a
card id `≥ 54`). -/
def remove_cards (player : Nat) : List Nat → List Slot → Option (List Slot)
  | [], slots => some slots
  | c :: cs, slots =>
    if 54 ≤ c then Option.none
    else
      match find_card slots player c with
      | Option.none => Option.none
      | some i => remove_cards player cs (slots.eraseIdx i)

/-- Declaration handling, removal half over all `(player, cards)` pairs of
the event's ground-truth map. -/
def remove_declared : List (Nat × List Nat) → List Slot → Option (List Slot)
  | [], slots => some slots
  | (p, cs) :: rest, slots => (remove_cards p cs slots).bind (remove_declared rest)

/-- Declaration handling, clearing half: clear the declared book's bits
from every remaining slot that intersects them, marking it dirty. -/
def clear_book (b : Nat) (slots : List Slot) : List Slot :=
  slots.map fun s =>
    if s.possible &&& book_mask b ≠ 0 then
      { s with possible := s.possible &&& not64 (book_mask b), dirty := true }
    else s

/-- The `match event` block of `Engine::update` (everything before the
`prune`/`update_request` calls).  The guards `54 ≤ c` model the
`Card::book` panic on an out-of-range card id. -/
def constraint_phase (slots : List Slot) : Event → Option (List Slot)
  | Event.ask asker askee c true =>
    if 54 ≤ c then Option.none
    else (has_book slots asker (book_of c)).bind fun s1 => move_card s1 askee asker c
  | Event.ask asker askee c false =>
    if 54 ≤ c then Option.none
    else (has_book slots asker (book_of c)).map fun s1 =>
      not_own_card (not_own_card s1 asker c) askee c
  | Event.declare b actual => (remove_declared actual slots).map (clear_book b)

/-- `Engine::update` without the final `update_request` call: constraint
update plus propagation. -/
def Engine.update_beliefs (e : Engine) (ev : Event) : Option Engine :=
  (constraint_phase e.slots ev).map fun s1 => { e with slots := prune s1 }

/-- Union of the `possible` masks of every resolved (singleton) slot on the
engine owner's team — the declare-check accumulator of
`Engine::update_request`. -/
def team_union (e : Engine) : Nat :=
  e.slots.foldl
    (fun acc s =>
      if s.owner % 2 = e.player_idx % 2 ∧ popCount s.possible = 1 then
        acc ||| s.possible
      else acc)
    0

/-- The players on the engine owner's team, in the order of the
`(player_idx % 2 .. num_players).step_by(2)` iterator. -/
def team_players (e : Engine) : List Nat :=
  (List.range e.num_players).filter fun p => p % 2 == e.player_idx % 2

/-- `guessed_cards.get_mut(&owner).unwrap().insert(card)`: insert a card
into the owner's guess set; `none` models the `unwrap` panic when the owner
is not a key of the map. -/
def insert_guess : List (Nat × Finset Nat) → Nat → Nat → Option (List (Nat × Finset Nat))
  | [], _, _ => Option.none
  | (p, s) :: rest, owner, c =>
    if p = owner then some ((p, insert c s) :: rest)
    else (insert_guess rest owner c).map ((p, s) :: ·)

/-- The guess-map construction of the declare branch of
`Engine::update_request`: start with an empty set per team player, then for
every team slot intersecting the book mask insert the card at the slot's
lowest set bit (`possible.trailing_zeros()`) under the slot's owner. -/
def build_guessed (e : Engine) (bm : Nat) : Option (List (Nat × Finset Nat)) :=
  e.slots.foldlM
    (fun gm s =>
      if s.owner % 2 = e.player_idx % 2 ∧ s.possible &&& bm ≠ 0 then
        insert_guess gm s.owner (ctz s.possible)
      else some gm)
    ((team_players e).map fun p => (p, (∅ : Finset Nat)))

/-- Per-player per-card possibility count: the number of slots owned by `p`
whose `possible` contains card `c` (the `counts` matrix of
`Engine::update_request`; counts are `u8` in Rust but never exceed the slot
count, which is at most the card count). -/
def counts_of (slots : List Slot) (p c : Nat) : Nat :=
  slots.countP fun s => s.owner == p && s.possible.testBit c

/-- Column sum of the counts matrix over all players (the `denominator`
vector of `Engine::update_request`). -/
def denominator_of (e : Engine) (c : Nat) : Nat :=
  ((List.range e.num_players).map fun p => counts_of e.slots p c).sum

/-- Union of the engine owner's own slots' `possible` masks (the `owned`
accumulator of the ask phase). -/
def owned_union (e : Engine) : Nat :=
  e.slots.foldl
    (fun acc s => if s.owner = e.player_idx then acc ||| s.possible else acc) 0

/-- The opposing-team players in the order of the
`((player_idx % 2) ^ 1 .. num_players).step_by(2)` iterator. -/
def opp_players (e : Engine) : List Nat :=
  (List.range e.num_players).filter fun p => p % 2 == (e.player_idx % 2) ^^^ 1

/-- State of the ask-selection scan: current request, current best ratio,
and how many random coins have been consumed. -/
structure AskState where
  request : EventRequest
  best : Option Rat
  coin_idx : Nat
deriving DecidableEq

/-- `Ratio::new(counts[p][num], denominator[num])` as an exact rational
(callers check the zero-denominator panic separately). -/
def chance_of (e : Engine) (num p : Nat) : Rat :=
  (counts_of e.slots p num : Rat) / (denominator_of e num : Rat)

/-- The inner player loop of the ask phase for a fixed candidate card
`num`: compute `Ratio::new(counts[player][num], denominator[num])` (`none`
models the zero-denominator panic), take the pair when it strictly beats
the best so far, or on an exact tie when the next coin comes up true;
a taken ratio of exactly 1 breaks out of the player loop. -/
def inner_ask (e : Engine) (coins : Nat → Bool) (num : Nat) :
    List Nat → AskState → Option AskState
  | [], st => some st
  | p :: ps, ⟨_req, Option.none, ci⟩ =>
    if denominator_of e num = 0 then Option.none
    else if chance_of e num p = 1 then
      some ⟨EventRequest.ask p num, some (chance_of e num p), ci⟩
    else inner_ask e coins num ps ⟨EventRequest.ask p num, some (chance_of e num p), ci⟩
  | p :: ps, ⟨req, some b, ci⟩ =>
    if denominator_of e num = 0 then Option.none
    else if b < chance_of e num p then
      if chance_of e num p = 1 then
        some ⟨EventRequest.ask p num, some (chance_of e num p), ci⟩
      else inner_ask e coins num ps ⟨EventRequest.ask p num, some (chance_of e num p), ci⟩
    else if chance_of e num p = b then
      if coins ci then
        if chance_of e num p = 1 then
          some ⟨EventRequest.ask p num, some (chance_of e num p), ci + 1⟩
        else inner_ask e coins num ps ⟨EventRequest.ask p num, some (chance_of e num p), ci + 1⟩
      else inner_ask e coins num ps ⟨req, some b, ci + 1⟩
    else inner_ask e coins num ps ⟨req, some b, ci⟩

/-- The outer card loop of the ask phase: skip cards already possibly owned
and cards whose book the owner has no stake in; `none` models the
`Card::book` panic on a non-skipped id `≥ 54`. -/
def outer_ask (e : Engine) (coins : Nat → Bool) (owned : Nat) :
    List Nat → AskState → Option AskState
  | [], st => some st
  | num :: rest, st =>
    if owned.testBit num then outer_ask e coins owned rest st
    else if 54 ≤ num then Option.none
    else if owned &&& book_mask (book_of num) = 0 then outer_ask e coins owned rest st
    else (inner_ask e coins num (opp_players e) st).bind (outer_ask e coins owned rest)

/-- `Engine::update_request`: first scan the nine books in enumeration
order for one fully covered by the team's resolved singleton slots and emit
a declare decision for the first hit; otherwise run the ask-selection scan
starting from request `None`. -/
def update_request (e : Engine) (coins : Nat → Bool) : Option Engine :=
  match (List.range 9).find? (fun b => team_union e &&& book_mask b == book_mask b) with
  | some b =>
    (build_guessed e (book_mask b)).map fun gm =>
      { e with request := EventRequest.declare b gm }
  | Option.none =>
    (outer_ask e coins (owned_union e) (List.range e.num_cards)
        ⟨EventRequest.none, Option.none, 0⟩).map
      fun st => { e with request := st.request }

/-- `Engine::update`: constraint update, propagation, decision recompute. -/
def Engine.update (e : Engine) (ev : Event) (coins : Nat → Bool) : Option Engine :=
  (e.update_beliefs ev).bind fun e1 => update_request e1 coins

/-! ## Bitmask toolkit -/

/-- `a ⊆ b` on bitsets, expressed as `a &&& b = a`. -/
theorem and_absorb_left (a b : Nat) : (a &&& b) &&& a = a &&& b := by
  rw [Nat.land_comm a b, Nat.land_assoc, Nat.and_self]

theorem and_sub_trans {a b c : Nat} (h1 : a &&& b = a) (h2 : b &&& c = b) :
    a &&& c = a := by
  conv_lhs => rw [← h1, Nat.land_assoc, h2, h1]

theorem and_sub_zero {a b m : Nat} (h1 : a &&& b = a) (h2 : b &&& m = 0) :
    a &&& m = 0 := by
  rw [← h1, Nat.land_assoc, h2, Nat.and_zero]

theorem card_mask_eq_two_pow (c : Nat) : card_mask c = 2 ^ c := by
  simp [card_mask, Nat.one_shiftLeft]

/-- A single-bit mask that meets a set is contained in it. -/
theorem single_bit_sub {a c : Nat} (h : a &&& card_mask c ≠ 0) :
    card_mask c &&& a = card_mask c := by
  rw [card_mask_eq_two_pow] at *
  rw [Nat.and_two_pow] at h
  rw [Nat.two_pow_and]
  rcases hb : a.testBit c with _ | _
  · rw [hb] at h; simp at h
  · simp

theorem popCountAux_congr : ∀ {n f1 f2 : Nat}, n ≤ f1 → n ≤ f2 →
    popCountAux f1 n = popCountAux f2 n := by
  intro n
  induction n using Nat.strong_induction_on with
  | _ n ih =>
    intro f1 f2 h1 h2
    cases f1 with
    | zero =>
      have hn : n = 0 := Nat.le_zero.mp h1
      subst hn
      cases f2 <;> simp [popCountAux]
    | succ a =>
      cases f2 with
      | zero =>
        have hn : n = 0 := Nat.le_zero.mp h2
        subst hn
        simp [popCountAux]
      | succ b =>
        by_cases hn : n = 0
        · subst hn; simp [popCountAux]
        · simp only [popCountAux, if_neg hn]
          have hd : n / 2 < n := Nat.div_lt_self (Nat.pos_of_ne_zero hn) (by decide)
          exact congrArg (· + n % 2) (ih (n / 2) hd (by omega) (by omega))

theorem popCount_div2 (n : Nat) : popCount n = popCount (n / 2) + n % 2 := by
  cases n with
  | zero => simp [popCount, popCountAux]
  | succ m =>
    show popCountAux (m + 1) (m + 1) = popCount ((m + 1) / 2) + (m + 1) % 2
    simp only [popCountAux, if_neg (Nat.succ_ne_zero m)]
    exact congrArg (· + (m + 1) % 2)
      (popCountAux_congr (by omega) (Nat.le_refl _))

theorem mod_two_le_of_and_eq {a b : Nat} (h : a &&& b = a) : a % 2 ≤ b % 2 := by
  have hb := congrArg (fun x => Nat.testBit x 0) h
  simp only [Nat.testBit_and, Nat.testBit_zero] at hb
  have h2 : a % 2 = 1 → b % 2 = 1 := by
    intro h1
    by_contra h2
    simp [h1, h2] at hb
  omega

theorem div2_and_eq {a b : Nat} (h : a &&& b = a) : a / 2 &&& b / 2 = a / 2 := by
  rw [← Nat.and_div_two, h]

theorem popCount_le_of_and_eq : ∀ {a b : Nat}, a &&& b = a → popCount a ≤ popCount b := by
  intro a
  induction a using Nat.strong_induction_on with
  | _ a ih =>
    intro b h
    cases a with
    | zero => simp [popCount, popCountAux]
    | succ m =>
      rw [popCount_div2 (m + 1), popCount_div2 b]
      have h1 := ih ((m + 1) / 2) (Nat.div_lt_self (Nat.succ_pos m) (by decide))
        (div2_and_eq h)
      have h2 := mod_two_le_of_and_eq h
      omega

theorem popCount_pos : ∀ {n : Nat}, n ≠ 0 → 0 < popCount n := by
  intro n
  induction n using Nat.strong_induction_on with
  | _ n ih =>
    intro hne
    rw [popCount_div2 n]
    rcases hm : n % 2 with _ | k
    · have hd : n / 2 ≠ 0 := by omega
      have := ih (n / 2) (Nat.div_lt_self (Nat.pos_of_ne_zero hne) (by decide)) hd
      omega
    · omega

theorem popCount_lt_of_and_eq : ∀ {a b : Nat}, a &&& b = a → a ≠ b →
    popCount a < popCount b := by
  intro a
  induction a using Nat.strong_induction_on with
  | _ a ih =>
    intro b h hne
    have hmod := mod_two_le_of_and_eq h
    have hdiv := div2_and_eq h
    cases a with
    | zero => simpa [popCount, popCountAux] using popCount_pos (Ne.symm hne)
    | succ m =>
      rcases Nat.eq_or_lt_of_le hmod with heq | hlt
      · have hne2 : (m + 1) / 2 ≠ b / 2 := by
          intro hd
          apply hne
          have h1 := Nat.div_add_mod (m + 1) 2
          have h2 := Nat.div_add_mod b 2
          omega
        rw [popCount_div2 (m + 1), popCount_div2 b]
        have := ih ((m + 1) / 2) (Nat.div_lt_self (Nat.succ_pos m) (by decide)) hdiv hne2
        omega
      · rw [popCount_div2 (m + 1), popCount_div2 b]
        have := popCount_le_of_and_eq hdiv
        omega

/-! ## The narrowing relation (claim C1)

`Narrows before after` holds when `after` is obtained from `before` by
deleting some slots outright and replacing each surviving slot by one whose
`possible` is a subset of the original (hence of no greater popcount); it
places no constraint on owners or dirty flags. -/

inductive Narrows : List Slot → List Slot → Prop
  | nil : Narrows [] []
  | drop {s : Slot} {l l' : List Slot} : Narrows l l' → Narrows (s :: l) l'
  | keep {s s' : Slot} {l l' : List Slot} :
      s'.possible &&& s.possible = s'.possible →
      popCount s'.possible ≤ popCount s.possible →
      Narrows l l' → Narrows (s :: l) (s' :: l')

/-- Smart constructor for `Narrows.keep`: the popcount bound follows from
the subset condition. -/
theorem Narrows.keep' {s s' : Slot} {l l' : List Slot}
    (h : s'.possible &&& s.possible = s'.possible) (hn : Narrows l l') :
    Narrows (s :: l) (s' :: l') :=
  Narrows.keep h (popCount_le_of_and_eq h) hn

theorem Narrows.refl : ∀ l : List Slot, Narrows l l
  | [] => Narrows.nil
  | _ :: l => Narrows.keep' (Nat.and_self _) (Narrows.refl l)

theorem Narrows.trans {l1 l2 l3 : List Slot} (h1 : Narrows l1 l2)
    (h2 : Narrows l2 l3) : Narrows l1 l3 := by
  induction h1 generalizing l3 with
  | nil =>
    cases h2
    exact Narrows.nil
  | drop h ih => exact Narrows.drop (ih h2)
  | keep hsub hpc h ih =>
    cases h2 with
    | drop h2' => exact Narrows.drop (ih h2')
    | keep hsub2 hpc2 h2' =>
      exact Narrows.keep (and_sub_trans hsub2 hsub) (le_trans hpc2 hpc) (ih h2')

theorem Narrows.eraseIdx : ∀ (l : List Slot) (i : Nat), Narrows l (l.eraseIdx i)
  | [], _ => Narrows.nil
  | _ :: l, 0 => Narrows.drop (Narrows.refl l)
  | _ :: l, i + 1 => Narrows.keep' (Nat.and_self _) (Narrows.eraseIdx l i)

/-- Pointwise narrowing maps give `Narrows`. -/
theorem Narrows.map {l : List Slot} {f : Slot → Slot}
    (h : ∀ s : Slot, (f s).possible &&& s.possible = (f s).possible) :
    Narrows l (l.map f) := by
  induction l with
  | nil => exact Narrows.nil
  | cons s l ih => exact Narrows.keep' (h s) ih

/-- Setting index `i` to a slot included in the one it replaces gives
`Narrows`. -/
theorem Narrows.set : ∀ (l : List Slot) (i : Nat) (s' : Slot),
    (∀ s : Slot, l[i]? = some s → s'.possible &&& s.possible = s'.possible) →
    Narrows l (l.set i s')
  | [], _, _, _ => Narrows.nil
  | s :: l, 0, s', h => Narrows.keep' (h s (by simp)) (Narrows.refl l)
  | s :: l, i + 1, s', h =>
    Narrows.keep' (Nat.and_self _)
      (Narrows.set l i s' (fun t ht => h t (by simpa using ht)))

/-! ## Narrowing facts about the engine operations -/

theorem find_idx_some {p : Slot → Bool} : ∀ {l : List Slot} {i : Nat},
    find_idx p l = some i → ∃ s : Slot, l[i]? = some s ∧ p s = true
  | [], i, h => by simp [find_idx] at h
  | s :: rest, i, h => by
    rw [find_idx] at h
    by_cases hp : p s = true
    · rw [if_pos hp] at h
      obtain rfl : (0 : Nat) = i := Option.some.inj h
      exact ⟨s, by simp, hp⟩
    · rw [if_neg hp] at h
      cases hf : find_idx p rest with
      | none => rw [hf] at h; simp at h
      | some j =>
        rw [hf] at h
        obtain rfl : j + 1 = i := Option.some.inj (by simpa using h)
        obtain ⟨t, ht, hpt⟩ := find_idx_some hf
        exact ⟨t, by simpa using ht, hpt⟩

theorem card_mask_ne_zero (c : Nat) : card_mask c ≠ 0 := by
  rw [card_mask_eq_two_pow]
  exact (Nat.pos_pow_of_pos c (by decide)).ne'

/-- Whatever rule of `find_card` fires, the found slot is owned by the
player and its `possible` contains the card's bit. -/
theorem find_card_some {slots : List Slot} {player c i : Nat}
    (h : find_card slots player c = some i) :
    ∃ s : Slot, slots[i]? = some s ∧ s.owner = player ∧
      s.possible &&& card_mask c ≠ 0 := by
  rw [find_card] at h
  rcases h1 : find_idx (fun s => s.owner == player && s.possible == card_mask c) slots with
    _ | j
  · rw [h1] at h
    simp only [Option.none_orElse] at h
    rcases h2 : find_idx (fun s => s.owner == player &&
        s.possible &&& not64 (book_mask (book_of c)) == 0 &&
        s.possible &&& card_mask c != 0) slots with _ | j
    · rw [h2] at h
      simp only [Option.none_orElse] at h
      obtain ⟨s, hs, hps⟩ := find_idx_some h
      refine ⟨s, hs, ?_, ?_⟩
      · simpa using (Bool.and_elim_left hps : _)
      · have := (Bool.and_elim_right hps : _)
        simpa using this
    · rw [h2] at h
      simp only [Option.some_orElse] at h
      obtain rfl : j = i := Option.some.inj h
      obtain ⟨s, hs, hps⟩ := find_idx_some h2
      refine ⟨s, hs, ?_, ?_⟩
      · simpa using (Bool.and_elim_left (Bool.and_elim_left hps) : _)
      · have := (Bool.and_elim_right hps : _)
        simpa using this
  · rw [h1] at h
    simp only [Option.some_orElse] at h
    obtain rfl : j = i := Option.some.inj h
    obtain ⟨s, hs, hps⟩ := find_idx_some h1
    refine ⟨s, hs, ?_, ?_⟩
    · simpa using (Bool.and_elim_left hps : _)
    · have heq : s.possible = card_mask c := by
        simpa using (Bool.and_elim_right hps : _)
      rw [heq, Nat.and_self]
      exact card_mask_ne_zero c

theorem narrow_book_narrows : ∀ {player bm : Nat} {l l' : List Slot},
    narrow_book player bm l = some l' → Narrows l l'
  | player, bm, [], l', h => by simp [narrow_book] at h
  | player, bm, s :: rest, l', h => by
    rw [narrow_book] at h
    by_cases hc : s.owner = player ∧ s.possible &&& bm ≠ 0
    · rw [if_pos hc] at h
      cases Option.some.inj h
      exact Narrows.keep' (and_absorb_left s.possible bm) (Narrows.refl rest)
    · rw [if_neg hc] at h
      cases hr : narrow_book player bm rest with
      | none => rw [hr] at h; simp at h
      | some r =>
        rw [hr] at h
        cases Option.some.inj (by simpa using h)
        exact Narrows.keep' (Nat.and_self _) (narrow_book_narrows hr)

theorem has_book_narrows {slots l' : List Slot} {player b : Nat}
    (h : has_book slots player b = some l') : Narrows slots l' := by
  rw [has_book] at h
  split at h
  · cases h; exact Narrows.refl _
  · exact narrow_book_narrows h

theorem move_card_narrows {slots l' : List Slot} {from_ to_ c : Nat}
    (h : move_card slots from_ to_ c = some l') : Narrows slots l' := by
  rw [move_card] at h
  cases hf : find_card slots from_ c with
  | none => rw [hf] at h; simp at h
  | some i =>
    rw [hf] at h
    cases Option.some.inj (by simpa using h)
    obtain ⟨s, hs, _, hne⟩ := find_card_some hf
    refine Narrows.set slots i _ fun t ht => ?_
    rw [hs] at ht
    cases ht
    exact single_bit_sub hne

theorem not_own_card_narrows (slots : List Slot) (player c : Nat) :
    Narrows slots (not_own_card slots player c) := by
  rw [not_own_card]
  refine Narrows.map fun s => ?_
  by_cases h : s.owner = player
  · rw [if_pos h]
    exact and_absorb_left _ _
  · rw [if_neg h]
    exact Nat.and_self _

theorem clear_book_narrows (b : Nat) (slots : List Slot) :
    Narrows slots (clear_book b slots) := by
  rw [clear_book]
  refine Narrows.map fun s => ?_
  by_cases h : s.possible &&& book_mask b ≠ 0
  · rw [if_pos h]
    exact and_absorb_left _ _
  · rw [if_neg h]
    exact Nat.and_self _

theorem remove_cards_narrows : ∀ {player : Nat} {cs : List Nat}
    {l l' : List Slot}, remove_cards player cs l = some l' → Narrows l l'
  | player, [], l, l', h => by
    rw [remove_cards] at h; cases h; exact Narrows.refl _
  | player, c :: cs, l, l', h => by
    rw [remove_cards] at h
    split at h
    · simp at h
    · cases hf : find_card l player c with
      | none => rw [hf] at h; simp at h
      | some i =>
        rw [hf] at h
        exact Narrows.trans (Narrows.eraseIdx l i) (remove_cards_narrows h)

theorem remove_declared_narrows : ∀ {actual : List (Nat × List Nat)}
    {l l' : List Slot}, remove_declared actual l = some l' → Narrows l l' := by
  intro actual
  induction actual with
  | nil => intro l l' h; rw [remove_declared] at h; cases h; exact Narrows.refl _
  | cons pc rest ih =>
    obtain ⟨p, cs⟩ := pc
    intro l l' h
    rw [remove_declared] at h
    cases hr : remove_cards p cs l with
    | none => rw [hr] at h; simp at h
    | some m =>
      rw [hr] at h
      simp only [Option.some_bind] at h
      exact Narrows.trans (remove_cards_narrows hr) (ih h)


theorem prune_hall_narrows (mask : Nat) (l : List Slot) :
    Narrows l (prune_hall mask l) := by
  rw [prune_hall]
  split
  · refine Narrows.map fun t => ?_
    by_cases hc : t.possible ≠ mask ∧ t.possible &&& mask ≠ 0
    · rw [if_pos hc]
      exact and_absorb_left _ _
    · rw [if_neg hc]
      exact Nat.and_self _
  · exact Narrows.refl _

theorem pruneStep_narrows {slots l' : List Slot} (h : pruneStep slots = some l') :
    Narrows slots l' := by
  rw [pruneStep] at h
  cases hf : find_idx (·.dirty) slots with
  | none => rw [hf] at h; simp at h
  | some i =>
    rw [hf] at h
    cases Option.some.inj h
    have hset : Narrows slots
        (slots.set i { slots.getD i ⟨0, 0, false⟩ with dirty := false }) := by
      refine Narrows.set slots i _ fun t ht => ?_
      have hg : slots.getD i ⟨0, 0, false⟩ = t := by
        rw [List.getD_eq_getElem?_getD, ht]
        rfl
      rw [hg]
      exact Nat.and_self _
    exact Narrows.trans hset (prune_hall_narrows _ _)

theorem pruneGo_narrows : ∀ (n : Nat) (l : List Slot), Narrows l (pruneGo n l)
  | 0, l => Narrows.refl l
  | n + 1, l => by
    rw [pruneGo]
    cases hs : pruneStep l with
    | none => exact Narrows.refl l
    | some m => exact Narrows.trans (pruneStep_narrows hs) (pruneGo_narrows n m)

theorem prune_narrows (l : List Slot) : Narrows l (prune l) :=
  pruneGo_narrows _ l

theorem constraint_phase_narrows : ∀ {slots l' : List Slot} {ev : Event},
    constraint_phase slots ev = some l' → Narrows slots l' := by
  intro slots l' ev h
  cases ev with
  | ask asker askee c success =>
    cases success with
    | true =>
      rw [constraint_phase] at h
      split at h
      · simp at h
      · cases hb : has_book slots asker (book_of c) with
        | none => rw [hb] at h; simp at h
        | some s1 =>
          rw [hb] at h
          simp only [Option.some_bind] at h
          exact Narrows.trans (has_book_narrows hb) (move_card_narrows h)
    | false =>
      rw [constraint_phase] at h
      split at h
      · simp at h
      · cases hb : has_book slots asker (book_of c) with
        | none => rw [hb] at h; simp at h
        | some s1 =>
          rw [hb] at h
          cases Option.some.inj (by simpa using h)
          exact Narrows.trans (has_book_narrows hb)
            (Narrows.trans (not_own_card_narrows s1 asker c)
              (not_own_card_narrows _ askee c))
  | declare b actual =>
    rw [constraint_phase] at h
    cases hr : remove_declared actual slots with
    | none => rw [hr] at h; simp at h
    | some s1 =>
      rw [hr] at h
      cases Option.some.inj (by simpa using h)
      exact Narrows.trans (remove_declared_narrows hr) (clear_book_narrows b s1)

theorem update_beliefs_narrows {e e1 : Engine} {ev : Event}
    (h : e.update_beliefs ev = some e1) : Narrows e.slots e1.slots := by
  rw [Engine.update_beliefs] at h
  cases hc : constraint_phase e.slots ev with
  | none => rw [hc] at h; simp at h
  | some s1 =>
    rw [hc] at h
    cases Option.some.inj (by simpa using h)
    exact Narrows.trans (constraint_phase_narrows hc) (prune_narrows s1)

/-- `Engine::update_request` only rewrites the `request` field: the slot
store is untouched by the decision recomputation. -/
theorem update_request_slots {e e' : Engine} {coins : Nat → Bool}
    (h : update_request e coins = some e') : e'.slots = e.slots := by
  rw [update_request] at h
  cases hfind : (List.range 9).find?
      (fun b => team_union e &&& book_mask b == book_mask b) with
  | none =>
    rw [hfind] at h
    dsimp only at h
    cases ho : outer_ask e coins (owned_union e) (List.range e.num_cards)
        ⟨EventRequest.none, Option.none, 0⟩ with
    | none => rw [ho] at h; simp at h
    | some st =>
      rw [ho] at h
      cases Option.some.inj (by simpa using h)
      rfl
  | some b =>
    rw [hfind] at h
    dsimp only at h
    cases hg : build_guessed e (book_mask b) with
    | none => rw [hg] at h; simp at h
    | some gm =>
      rw [hg] at h
      cases Option.some.inj (by simpa using h)
      rfl

/-- C1.  Every single event processed by `Engine::update` only ever narrows
the surviving slots: the slot list after a successful update is obtained
from the one before by deleting some slots (declaration handling only) and
replacing each surviving slot, in order, by one whose `possible` is a
subset of what it was (`Narrows.keep` carries both the bitwise-subset
equation and the popcount bound), so no surviving slot is ever widened. -/
theorem update_narrows (e : Engine) (ev : Event) (coins : Nat → Bool) (e' : Engine)
    (h : e.update ev coins = some e') : Narrows e.slots e'.slots := by
  rw [Engine.update] at h
  cases hb : e.update_beliefs ev with
  | none => rw [hb] at h; simp at h
  | some e1 =>
    rw [hb] at h
    simp only [Option.some_bind] at h
    rw [update_request_slots h]
    exact update_beliefs_narrows hb

/-- Witness for C1 at a concrete input: a successful request by player 0
against player 1 for card 0 on a two-card engine narrows both slots. -/
theorem update_narrows_witness :
    Narrows [⟨3, 0, false⟩, ⟨3, 1, false⟩] [⟨2, 0, false⟩, ⟨1, 0, false⟩] := by
  have h := update_narrows ⟨2, 2, 0, [⟨3, 0, false⟩, ⟨3, 1, false⟩], EventRequest.none⟩
    (Event.ask 0 1 0 true) (fun _ => false)
    ⟨2, 2, 0, [⟨2, 0, false⟩, ⟨1, 0, false⟩], EventRequest.none⟩ (by decide)
  exact h

/-! ## Claim C3: the `has_book` contract -/

/-- `narrow_book` in index form: it narrows exactly the first slot owned by
the player that overlaps the mask, replacing its `possible` by the
intersection with the mask and setting its dirty flag, and leaves every
other slot untouched; it fails exactly when no owned slot overlaps. -/
theorem narrow_book_eq (player bm : Nat) : ∀ l : List Slot,
    narrow_book player bm l =
      (find_idx (fun s => s.owner == player && s.possible &&& bm != 0) l).map
        fun i => l.set i
          { l.getD i ⟨0, 0, false⟩ with
              possible := (l.getD i ⟨0, 0, false⟩).possible &&& bm,
              dirty := true }
  | [] => rfl
  | s :: rest => by
    rw [narrow_book, find_idx]
    by_cases hc : s.owner = player ∧ s.possible &&& bm ≠ 0
    · rw [if_pos hc, if_pos (by simp [hc.1, hc.2])]
      rfl
    · rw [if_neg hc, if_neg (by simpa using fun h1 h2 => hc ⟨h1, h2⟩),
        narrow_book_eq player bm rest]
      cases find_idx (fun s => s.owner == player && s.possible &&& bm != 0) rest with
      | none => rfl
      | some j => rfl

/-- C3 (amended).  The full contract of `has_book(A, B)`:
(1) if some slot owned by `A` is already confined within `B`'s mask the
call returns with no mutation; (2) otherwise, if the first slot owned by
`A` whose `possible` intersects `B`'s mask is at index `i`, exactly that
slot is narrowed — to the intersection of its previous `possible` with
`B`'s mask, not to the full mask — and marked dirty, all other slots
(including already-exact ones) being untouched; (3) if no slot owned by
`A` intersects `B`'s mask, the update fails fatally (the
"No slot available to add book constraint" panic, modelled as `none`). -/
theorem has_book_spec (slots : List Slot) (player b : Nat) :
    ((∃ s ∈ slots, s.owner = player ∧ s.possible &&& not64 (book_mask b) = 0) →
      has_book slots player b = some slots) ∧
    ((¬ ∃ s ∈ slots, s.owner = player ∧ s.possible &&& not64 (book_mask b) = 0) →
      ∀ i : Nat,
        find_idx (fun s => s.owner == player && s.possible &&& book_mask b != 0)
            slots = some i →
        has_book slots player b = some (slots.set i
          { slots.getD i ⟨0, 0, false⟩ with
              possible := (slots.getD i ⟨0, 0, false⟩).possible &&& book_mask b,
              dirty := true })) ∧
    ((¬ ∃ s ∈ slots, s.owner = player ∧ s.possible &&& not64 (book_mask b) = 0) →
      (∀ s ∈ slots, s.owner = player → s.possible &&& book_mask b = 0) →
      has_book slots player b = Option.none) := by
  have hany : (slots.any fun s =>
      s.owner = player && s.possible &&& not64 (book_mask b) = 0) = true ↔
      ∃ s ∈ slots, s.owner = player ∧ s.possible &&& not64 (book_mask b) = 0 := by
    rw [List.any_eq_true]
    constructor
    · rintro ⟨s, hs, hp⟩
      exact ⟨s, hs, by simpa using hp⟩
    · rintro ⟨s, hs, h1, h2⟩
      exact ⟨s, hs, by simp [h1, h2]⟩
  refine ⟨fun hex => ?_, fun hnex i hfind => ?_, fun hnex hnone => ?_⟩
  · rw [has_book, if_pos (hany.mpr hex)]
  · rw [has_book, if_neg (fun hh => hnex (hany.mp hh)), narrow_book_eq, hfind]
    rfl
  · rw [has_book, if_neg (fun hh => hnex (hany.mp hh)), narrow_book_eq]
    have : find_idx (fun s => s.owner == player && s.possible &&& book_mask b != 0)
        slots = Option.none := by
      cases hf : find_idx (fun s => s.owner == player &&
          s.possible &&& book_mask b != 0) slots with
      | none => rfl
      | some j =>
        obtain ⟨s, hs, hps⟩ := find_idx_some hf
        have hmem : s ∈ slots := by
          have := List.getElem?_mem hs
          exact this
        have h1 : s.owner = player := by
          simpa using (Bool.and_elim_left hps : _)
        have h2 : s.possible &&& book_mask b ≠ 0 := by
          simpa using (Bool.and_elim_right hps : _)
        exact absurd (hnone s hmem h1) h2
    rw [this]
    rfl

/-- Counterexample to C3 as stated: a slot with `possible = {card 0, card 6}`
(value 65) is the first slot of player 0 overlapping book 0 and no slot is
confined within the book, yet `has_book` narrows it to `{card 0}` (value 1),
not to the book's full mask 63. -/
theorem has_book_cex :
    has_book [⟨65, 0, false⟩] 0 0 = some [⟨1, 0, true⟩] ∧
      (1 : Nat) ≠ book_mask 0 := by
  constructor
  · decide
  · decide

/-- Witness exercising every hypothesis of `has_book_spec`: the early
return on a confined slot, the narrowing of the first overlapping slot,
and the fatal failure when no owned slot overlaps the book. -/
theorem has_book_spec_witness :
    has_book [⟨3, 0, false⟩] 0 0 = some [⟨3, 0, false⟩] ∧
    has_book [⟨65, 0, false⟩] 0 0 = some [⟨1, 0, true⟩] ∧
    has_book [⟨64, 0, false⟩, ⟨63, 1, false⟩] 0 0 = Option.none := by
  refine ⟨?_, ?_, ?_⟩
  · exact (has_book_spec [⟨3, 0, false⟩] 0 0).1 ⟨⟨3, 0, false⟩, by decide, by decide⟩
  · have h := (has_book_spec [⟨65, 0, false⟩] 0 0).2.1 (by decide) 0 (by decide)
    exact h.trans (by decide)
  · exact (has_book_spec [⟨64, 0, false⟩, ⟨63, 1, false⟩] 0 0).2.2 (by decide)
      (by decide)

/-! ## Claim C6: frame of the request-failure updater -/

theorem ones64_testBit (j : Nat) : ones64.testBit j = decide (j < 64) := by
  rw [ones64]
  exact Nat.testBit_two_pow_sub_one 64 j

theorem testBit_clear_self {p c : Nat} (hc : c < 64) :
    (p &&& not64 (card_mask c)).testBit c = false := by
  rw [Nat.testBit_and, not64, Nat.testBit_xor, card_mask_eq_two_pow,
    Nat.testBit_two_pow, ones64_testBit]
  simp [hc]

theorem testBit_clear_other {p c j : Nat} (hj : j ≠ c) (hj64 : j < 64) :
    (p &&& not64 (card_mask c)).testBit j = p.testBit j := by
  rw [Nat.testBit_and, not64, Nat.testBit_xor, card_mask_eq_two_pow,
    Nat.testBit_two_pow, ones64_testBit]
  simp [hj64, Ne.symm hj]

/-- The two `not_own_card` calls of the failure branch amount to one
pointwise map clearing card `c` from the slots of the two parties. -/
theorem double_not_own (s1 : List Slot) (asker askee c : Nat) :
    not_own_card (not_own_card s1 asker c) askee c = s1.map fun s =>
      if s.owner = asker ∨ s.owner = askee then
        { s with possible := s.possible &&& not64 (card_mask c), dirty := true }
      else s := by
  rw [not_own_card, not_own_card, List.map_map]
  refine List.map_congr_left fun s _ => ?_
  by_cases ha : s.owner = asker
  · by_cases hk : s.owner = askee
    · simp [Function.comp, ha, hk, Nat.land_assoc, Nat.and_self]
    · simp [Function.comp, ha, hk, show ¬(asker = askee) from ha ▸ hk]
  · by_cases hk : s.owner = askee
    · simp [Function.comp, ha, hk, show ¬(askee = asker) from hk ▸ ha]
    · simp [Function.comp, ha, hk]

/-- C6.  On a failed request by `asker` to `askee` for card `c`, after the
`has_book` step the constraint updater only clears `c`'s single bit from
the slots owned by the two parties: the update is the double
`not_own_card` application, slot count and every `owner` field are
preserved, the parties' slots lose exactly bit `c` (every other bit of the
`u64` range is unchanged) and are marked dirty, and every slot owned by
anyone else is left completely unchanged — all before propagation runs. -/
theorem failure_frame (slots s1 : List Slot) (asker askee c : Nat)
    (hc : c < 54)
    (hb : has_book slots asker (book_of c) = some s1)
    (hu : ∀ s ∈ s1, s.possible < 2 ^ 64) :
    constraint_phase slots (Event.ask asker askee c false) =
      some (not_own_card (not_own_card s1 asker c) askee c) ∧
    (not_own_card (not_own_card s1 asker c) askee c).length = s1.length ∧
    (∀ i : Nat, ∀ s : Slot, s1[i]? = some s →
      ∃ s' : Slot,
        (not_own_card (not_own_card s1 asker c) askee c)[i]? = some s' ∧
        s'.owner = s.owner ∧
        if s.owner = asker ∨ s.owner = askee then
          s'.dirty = true ∧ s'.possible.testBit c = false ∧
            ∀ j : Nat, j ≠ c → s'.possible.testBit j = s.possible.testBit j
        else s' = s) := by
  have hc64 : c < 64 := by omega
  refine ⟨?_, ?_, ?_⟩
  · rw [constraint_phase, if_neg (by omega), hb]
    rfl
  · rw [not_own_card, not_own_card, List.length_map, List.length_map]
  · intro i s hs
    have hmem : s ∈ s1 := List.getElem?_mem hs
    rw [double_not_own]
    by_cases hor : s.owner = asker ∨ s.owner = askee
    · refine ⟨⟨s.possible &&& not64 (card_mask c), s.owner, true⟩, ?_, rfl, ?_⟩
      · rw [List.getElem?_map, hs, Option.map_some', if_pos hor]
      · rw [if_pos hor]
        refine ⟨rfl, testBit_clear_self hc64, ?_⟩
        intro j hj
        by_cases hj64 : j < 64
        · exact testBit_clear_other hj hj64
        · have h1 : s.possible.testBit j = false :=
            Nat.testBit_eq_false_of_lt
              (lt_of_lt_of_le (hu s hmem) (Nat.pow_le_pow_right (by decide) (by omega)))
          have h2 : (s.possible &&& not64 (card_mask c)).testBit j = false := by
            rw [Nat.testBit_and, h1]
            rfl
          rw [h1, h2]
    · refine ⟨s, ?_, rfl, ?_⟩
      · rw [List.getElem?_map, hs, Option.map_some', if_neg hor]
      · rw [if_neg hor]

/-- Witness for C6 at a concrete input: a failed request by player 0
against player 1 for card 0 on a three-player engine state. -/
theorem failure_frame_witness :
    constraint_phase [⟨3, 0, false⟩, ⟨3, 1, false⟩, ⟨3, 2, false⟩]
        (Event.ask 0 1 0 false) =
      some [⟨2, 0, true⟩, ⟨2, 1, true⟩, ⟨3, 2, false⟩] := by
  have h := (failure_frame [⟨3, 0, false⟩, ⟨3, 1, false⟩, ⟨3, 2, false⟩]
    [⟨3, 0, false⟩, ⟨3, 1, false⟩, ⟨3, 2, false⟩] 0 1 0 (by decide)
    (by decide) (by decide)).1
  exact h.trans (by decide)

/-! ## Claim C5: declaration processing -/

theorem remove_cards_length : ∀ {player : Nat} {cs : List Nat} {l l' : List Slot},
    remove_cards player cs l = some l' → l'.length + cs.length = l.length
  | player, [], l, l', h => by
    rw [remove_cards] at h
    cases h
    simp
  | player, c :: cs, l, l', h => by
    rw [remove_cards] at h
    split at h
    · simp at h
    · cases hf : find_card l player c with
      | none => rw [hf] at h; simp at h
      | some i =>
        rw [hf] at h
        have hlen := remove_cards_length h
        obtain ⟨s, hs, _, _⟩ := find_card_some hf
        have hi : i < l.length := (List.getElem?_eq_some_iff.mp hs).1
        rw [List.length_eraseIdx_of_lt hi] at hlen
        simp only [List.length_cons]
        omega

theorem remove_declared_length : ∀ {actual : List (Nat × List Nat)}
    {l l' : List Slot}, remove_declared actual l = some l' →
    l'.length + (actual.map fun pc => pc.2.length).sum = l.length
  | [], l, l', h => by
    rw [remove_declared] at h
    cases h
    simp
  | pc :: rest, l, l', h => by
    obtain ⟨p, cs⟩ := pc
    rw [remove_declared] at h
    cases hr : remove_cards p cs l with
    | none => rw [hr] at h; simp at h
    | some m =>
      rw [hr] at h
      simp only [Option.some_bind] at h
      have h1 := remove_cards_length hr
      have h2 := remove_declared_length h
      simp only [List.map_cons, List.sum_cons]
      omega

theorem book_mask_lt {b : Nat} (hb : b < 9) : book_mask b < 2 ^ 64 := by
  interval_cases b <;> decide

theorem not64_and_self {m : Nat} (hm : m < 2 ^ 64) : not64 m &&& m = 0 := by
  refine Nat.eq_of_testBit_eq fun j => ?_
  rw [Nat.testBit_and, not64, Nat.testBit_xor, ones64_testBit, Nat.zero_testBit]
  by_cases hj : j < 64
  · simp [hj]
  · have : m.testBit j = false :=
      Nat.testBit_eq_false_of_lt
        (lt_of_lt_of_le hm (Nat.pow_le_pow_right (by decide) (by omega)))
    simp [this]

theorem clear_book_disjoint {b : Nat} (hb : b < 9) (l : List Slot) :
    ∀ s ∈ clear_book b l, s.possible &&& book_mask b = 0 := by
  intro s hs
  rw [clear_book] at hs
  obtain ⟨t, _, ht⟩ := List.mem_map.mp hs
  by_cases hc : t.possible &&& book_mask b ≠ 0
  · rw [if_pos hc] at ht
    subst ht
    show t.possible &&& not64 (book_mask b) &&& book_mask b = 0
    rw [Nat.land_assoc, not64_and_self (book_mask_lt hb), Nat.and_zero]
  · rw [if_neg hc] at ht
    subst ht
    simpa using hc

/-- A narrowing step preserves disjointness from a fixed mask. -/
theorem narrows_disjoint {l l' : List Slot} (h : Narrows l l') {m : Nat}
    (hd : ∀ s ∈ l, s.possible &&& m = 0) : ∀ s ∈ l', s.possible &&& m = 0 := by
  induction h with
  | nil => intro s hs; cases hs
  | drop h ih =>
    intro s hs
    exact ih (fun t ht => hd t (List.mem_cons_of_mem _ ht)) s hs
  | keep hsub hpc h ih =>
    intro s hs
    rcases List.mem_cons.mp hs with rfl | hs'
    · exact and_sub_zero hsub (hd _ (List.mem_cons_self _ _))
    · exact ih (fun t ht => hd t (List.mem_cons_of_mem _ ht)) s hs'

/-- C5.  Processing a declaration of book `b`: (conjunct 1) if some named
`(player, card)` slot cannot be located the update fails fatally;
(conjunct 2) otherwise the removal phase deletes exactly one slot per
named card, the clearing phase rewrites each remaining slot to its
book-cleared, dirty-marked form exactly when it intersected `b`'s mask
(leaving the others byte-for-byte unchanged), and after the full
constraint-plus-prune update no remaining slot's `possible` intersects
`b`'s mask. -/
theorem declare_spec (e : Engine) (b : Nat) (actual : List (Nat × List Nat))
    (hb : b < 9) :
    (remove_declared actual e.slots = Option.none →
      e.update_beliefs (Event.declare b actual) = Option.none) ∧
    (∀ e2 : Engine, e.update_beliefs (Event.declare b actual) = some e2 →
      ∃ slots1 : List Slot,
        remove_declared actual e.slots = some slots1 ∧
        slots1.length + (actual.map fun pc => pc.2.length).sum = e.slots.length ∧
        (∀ (i : Nat) (s : Slot), slots1[i]? = some s →
          (clear_book b slots1)[i]? = some
            (if s.possible &&& book_mask b ≠ 0 then
              ⟨s.possible &&& not64 (book_mask b), s.owner, true⟩
            else s)) ∧
        e2.slots = prune (clear_book b slots1) ∧
        ∀ s ∈ e2.slots, s.possible &&& book_mask b = 0) := by
  constructor
  · intro hnone
    rw [Engine.update_beliefs, constraint_phase, hnone]
    rfl
  · intro e2 h2
    rw [Engine.update_beliefs, constraint_phase] at h2
    cases hr : remove_declared actual e.slots with
    | none => rw [hr] at h2; simp at h2
    | some slots1 =>
      rw [hr] at h2
      cases Option.some.inj (by simpa using h2)
      refine ⟨slots1, rfl, remove_declared_length hr, ?_, rfl, ?_⟩
      · intro i s hs
        rw [clear_book, List.getElem?_map, hs, Option.map_some']
      · exact narrows_disjoint (prune_narrows (clear_book b slots1))
          (clear_book_disjoint hb slots1)

/-- Witness for C5: a successful two-card declaration (checking the
post-update book-disjointness on a surviving slot) and a fatal one whose
named card cannot be located. -/
theorem declare_spec_witness :
    (⟨4032, 1, false⟩ : Slot).possible &&& book_mask 0 = 0 ∧
    Engine.update_beliefs ⟨2, 12, 0, [⟨2, 1, false⟩], EventRequest.none⟩
      (Event.declare 0 [(0, [0])]) = Option.none := by
  constructor
  · have h := (declare_spec
      ⟨2, 12, 0, [⟨1, 0, false⟩, ⟨4032, 1, false⟩], EventRequest.none⟩ 0
      [(0, [0])] (by decide)).2
    obtain ⟨slots1, hrem, hlen, hpt, hslots, hdisj⟩ :=
      h ⟨2, 12, 0, [⟨4032, 1, false⟩], EventRequest.none⟩ (by decide)
    exact hdisj ⟨4032, 1, false⟩ (by decide)
  · exact (declare_spec ⟨2, 12, 0, [⟨2, 1, false⟩], EventRequest.none⟩ 0
      [(0, [0])] (by decide)).1 (by decide)

/-! ## Claim C7: termination of the `prune` worklist -/

/-- Termination measure for the worklist: total popcount weighted by the
slot count, plus the number of dirty flags. -/
def prune_measure (slots : List Slot) : Nat :=
  (slots.length + 1) * sum_pop slots + dirty_count slots

theorem find_idx_eq_none {p : Slot → Bool} : ∀ {l : List Slot},
    (∀ s ∈ l, p s = false) → find_idx p l = Option.none
  | [], _ => rfl
  | s :: rest, h => by
    rw [find_idx, if_neg (by simp [h s (List.mem_cons_self _ _)]),
      find_idx_eq_none fun t ht => h t (List.mem_cons_of_mem _ ht)]
    rfl

theorem pruneStep_none_of_no_dirty {l : List Slot} (h : dirty_count l = 0) :
    pruneStep l = Option.none := by
  rw [pruneStep, find_idx_eq_none]
  intro s hs
  have := List.countP_eq_zero.mp h s hs
  simpa using this

theorem sum_pop_cons (a : Slot) (l : List Slot) :
    sum_pop (a :: l) = popCount a.possible + sum_pop l := by
  simp [sum_pop]

theorem dirty_count_cons (a : Slot) (l : List Slot) :
    dirty_count (a :: l) = dirty_count l + (if a.dirty = true then 1 else 0) := by
  simp [dirty_count, List.countP_cons]

theorem sum_pop_set_eq : ∀ {l : List Slot} {i : Nat} {s v : Slot},
    l[i]? = some s → v.possible = s.possible → sum_pop (l.set i v) = sum_pop l := by
  intro l
  induction l with
  | nil => intro i s v h _; simp at h
  | cons a rest ih =>
    intro i s v h hp
    cases i with
    | zero =>
      cases Option.some.inj (by simpa using h)
      rw [List.set_cons_zero, sum_pop_cons, sum_pop_cons, hp]
    | succ j =>
      have h' : rest[j]? = some s := by simpa using h
      rw [List.set_cons_succ, sum_pop_cons, sum_pop_cons, ih h' hp]

theorem dirty_count_set : ∀ {l : List Slot} {i : Nat} {s v : Slot},
    l[i]? = some s → s.dirty = true → v.dirty = false →
    dirty_count (l.set i v) + 1 = dirty_count l := by
  intro l
  induction l with
  | nil => intro i s v h _ _; simp at h
  | cons a rest ih =>
    intro i s v h hs hv
    cases i with
    | zero =>
      cases Option.some.inj (by simpa using h)
      rw [List.set_cons_zero, dirty_count_cons, dirty_count_cons, hs, hv]
      simp
    | succ j =>
      have h' : rest[j]? = some s := by simpa using h
      rw [List.set_cons_succ, dirty_count_cons, dirty_count_cons]
      have := ih h' hs hv
      omega

theorem dirty_count_le (l : List Slot) : dirty_count l ≤ l.length :=
  List.countP_le_length _

/-- Clearing an actually-present bit strictly reduces the popcount. -/
theorem hall_shrink_lt {p mask : Nat} (hp : p < 2 ^ 64)
    (hint : p &&& mask ≠ 0) :
    popCount (p &&& not64 mask) < popCount p := by
  refine popCount_lt_of_and_eq (and_absorb_left p (not64 mask)) ?_
  intro heq
  obtain ⟨j, hj⟩ := Nat.ne_zero_implies_bit_true hint
  rw [Nat.testBit_and] at hj
  have hpj : p.testBit j = true := Bool.and_elim_left hj
  have hmj : mask.testBit j = true := Bool.and_elim_right hj
  have hj64 : j < 64 := by
    by_contra h64
    have : p.testBit j = false :=
      Nat.testBit_eq_false_of_lt
        (lt_of_lt_of_le hp (Nat.pow_le_pow_right (by decide) (by omega)))
    rw [this] at hpj
    exact absurd hpj (by simp)
  have hbit := congrArg (fun x => Nat.testBit x j) heq
  simp only [Nat.testBit_and, not64, Nat.testBit_xor, ones64_testBit] at hbit
  rw [hpj, hmj] at hbit
  simp [hj64] at hbit

theorem sum_pop_map_le (f : Slot → Slot)
    (hf : ∀ s : Slot, popCount (f s).possible ≤ popCount s.possible) :
    ∀ l : List Slot, sum_pop (l.map f) ≤ sum_pop l
  | [] => Nat.le_refl _
  | a :: l => by
    rw [List.map_cons, sum_pop_cons, sum_pop_cons]
    exact Nat.add_le_add (hf a) (sum_pop_map_le f hf l)

theorem sum_pop_map_lt (f : Slot → Slot)
    (hf : ∀ s : Slot, popCount (f s).possible ≤ popCount s.possible) :
    ∀ {l : List Slot} {s : Slot}, s ∈ l →
      popCount (f s).possible < popCount s.possible →
      sum_pop (l.map f) < sum_pop l := by
  intro l
  induction l with
  | nil => intro s h; cases h
  | cons a rest ih =>
    intro s hs hlt
    rw [List.map_cons, sum_pop_cons, sum_pop_cons]
    rcases List.mem_cons.mp hs with rfl | hs'
    · exact Nat.add_lt_add_of_lt_of_le hlt (sum_pop_map_le f hf rest)
    · exact Nat.add_lt_add_of_le_of_lt (hf a) (ih hs' hlt)

theorem prune_hall_pointwise_le (mask : Nat) : ∀ s : Slot,
    popCount ((fun t : Slot =>
      if t.possible ≠ mask ∧ t.possible &&& mask ≠ 0 then
        { t with possible := t.possible &&& not64 mask, dirty := true }
      else t) s).possible ≤ popCount s.possible := by
  intro s
  dsimp only
  split
  · exact popCount_le_of_and_eq (and_absorb_left _ _)
  · exact Nat.le_refl _

/-- The Hall-narrowing keeps the total popcount from growing, and shrinks
it strictly as soon as the Hall condition fires with one genuinely
narrowable slot. -/
theorem prune_hall_sum_pop {mask : Nat} {l : List Slot}
    (hu : ∀ s ∈ l, s.possible < 2 ^ 64) :
    sum_pop (prune_hall mask l) ≤ sum_pop l ∧
    ((l.countP fun t => t.possible == mask) = popCount mask →
      (∃ s ∈ l, s.possible ≠ mask ∧ s.possible &&& mask ≠ 0) →
      sum_pop (prune_hall mask l) < sum_pop l) := by
  rw [prune_hall]
  split
  · refine ⟨sum_pop_map_le _ (prune_hall_pointwise_le mask) l, ?_⟩
    rintro _ ⟨s, hs, hne, hint⟩
    refine sum_pop_map_lt _ (prune_hall_pointwise_le mask) hs ?_
    dsimp only
    rw [if_pos ⟨hne, hint⟩]
    exact hall_shrink_lt (hu s hs) hint
  · refine ⟨Nat.le_refl _, ?_⟩
    intro hcnt
    exact absurd hcnt (by assumption)

theorem prune_hall_length (mask : Nat) (l : List Slot) :
    (prune_hall mask l).length = l.length := by
  rw [prune_hall]
  split
  · rw [List.length_map]
  · rfl

theorem narrows_bound {l l' : List Slot} (h : Narrows l l')
    (hu : ∀ s ∈ l, s.possible < 2 ^ 64) : ∀ s ∈ l', s.possible < 2 ^ 64 := by
  induction h with
  | nil => intro s hs; cases hs
  | drop h ih =>
    intro s hs
    exact ih (fun t ht => hu t (List.mem_cons_of_mem _ ht)) s hs
  | keep hsub hpc h ih =>
    intro s hs
    rcases List.mem_cons.mp hs with rfl | hs'
    · calc s.possible = s.possible &&& _ := hsub.symm
        _ ≤ _ := Nat.and_le_right
        _ < 2 ^ 64 := hu _ (List.mem_cons_self _ _)
    · exact ih (fun t ht => hu t (List.mem_cons_of_mem _ ht)) s hs'

/-- Each worklist iteration strictly decreases the measure (for
`u64`-ranged slots) and preserves the slot count. -/
theorem pruneStep_measure_lt {l l' : List Slot} (h : pruneStep l = some l')
    (hu : ∀ s ∈ l, s.possible < 2 ^ 64) :
    prune_measure l' < prune_measure l ∧ l'.length = l.length := by
  rw [pruneStep] at h
  cases hf : find_idx (·.dirty) l with
  | none => rw [hf] at h; simp at h
  | some i =>
    rw [hf] at h
    cases Option.some.inj h
    obtain ⟨s0, hs0, hd0⟩ := find_idx_some hf
    have hgd : l.getD i ⟨0, 0, false⟩ = s0 := by
      rw [List.getD_eq_getElem?_getD, hs0]
      rfl
    rw [hgd]
    set v : Slot := { s0 with dirty := false } with hv
    set l1 := l.set i v with hl1
    have hlen1 : l1.length = l.length := List.length_set l i v
    have hsum1 : sum_pop l1 = sum_pop l := sum_pop_set_eq hs0 rfl
    have hdc1 : dirty_count l1 + 1 = dirty_count l :=
      dirty_count_set hs0 (by simpa using hd0) rfl
    have hu1 : ∀ s ∈ l1, s.possible < 2 ^ 64 := by
      intro s hs
      rcases List.mem_or_eq_of_mem_set hs with hmem | rfl
      · exact hu s hmem
      · exact hu s0 (List.getElem?_mem hs0)
    have hlen' : (prune_hall s0.possible l1).length = l.length := by
      rw [prune_hall_length, hlen1]
    refine ⟨?_, hlen'⟩
    rw [prune_measure, prune_measure, hlen']
    by_cases hfire : (l1.countP fun t => t.possible == s0.possible) =
        popCount s0.possible
    · by_cases hex : ∃ s ∈ l1, s.possible ≠ s0.possible ∧
          s.possible &&& s0.possible ≠ 0
      · have hlt := (prune_hall_sum_pop hu1).2 hfire hex
        have hle := dirty_count_le (prune_hall s0.possible l1)
        rw [hlen'] at hle
        have hmul : (l.length + 1) * (sum_pop (prune_hall s0.possible l1) + 1) ≤
            (l.length + 1) * sum_pop l := by
          refine Nat.mul_le_mul_left _ ?_
          omega
        rw [Nat.mul_succ] at hmul
        omega
      · have heq : prune_hall s0.possible l1 = l1 := by
          rw [prune_hall, if_pos hfire]
          have : ∀ t ∈ l1, (if t.possible ≠ s0.possible ∧
              t.possible &&& s0.possible ≠ 0 then
                (⟨t.possible &&& not64 s0.possible, t.owner, true⟩ : Slot)
              else t) = t := by
            intro t ht
            rw [if_neg fun hc => hex ⟨t, ht, hc⟩]
          rw [List.map_congr_left this]
          simp
        rw [heq, hsum1]
        omega
    · have heq : prune_hall s0.possible l1 = l1 := by
        rw [prune_hall, if_neg hfire]
      rw [heq, hsum1]
      omega

theorem pruneGo_fixpoint : ∀ (n : Nat) (l : List Slot),
    (∀ s ∈ l, s.possible < 2 ^ 64) → prune_measure l ≤ n →
    pruneStep (pruneGo n l) = Option.none
  | 0, l, hu, hm => by
    rw [pruneGo]
    refine pruneStep_none_of_no_dirty ?_
    rw [prune_measure] at hm
    omega
  | n + 1, l, hu, hm => by
    rw [pruneGo]
    cases hs : pruneStep l with
    | none => exact hs
    | some m =>
      obtain ⟨hlt, _⟩ := pruneStep_measure_lt hs hu
      exact pruneGo_fixpoint n m (narrows_bound (pruneStep_narrows hs) hu)
        (by omega)

/-- C7.  `prune` terminates on every (`u64`-ranged) engine state: running
the worklist for the explicit fuel `prune_fuel` — an upper bound on the
measure "total popcount weighted by slot count, plus dirty flags", which
every iteration strictly decreases because `possible` masks only shrink
and the slot count is finite — leaves no dirty slot, i.e. the `while let`
loop guard of the Rust code fails and the loop exits. -/
theorem prune_terminates (slots : List Slot)
    (hu : ∀ s ∈ slots, s.possible < 2 ^ 64) :
    pruneStep (prune slots) = Option.none := by
  rw [prune]
  refine pruneGo_fixpoint _ slots hu ?_
  rw [prune_measure, prune_fuel]
  have := dirty_count_le slots
  omega

/-- Witness for C7 at a concrete input: a two-slot worklist settles. -/
theorem prune_terminates_witness :
    pruneStep (prune [⟨3, 0, true⟩, ⟨3, 1, true⟩]) = Option.none :=
  prune_terminates [⟨3, 0, true⟩, ⟨3, 1, true⟩] (by decide)

/-! ## Claim C9: `Engine::init` -/

/-- Full characterization of the slot-building loop: it succeeds exactly
when the hand has one card per owned slot index, produces one slot per
index with the bucketed owner and a clear dirty flag, resolves the owned
slots to the hand cards' singleton masks in hand order, and gives every
other slot the default mask. -/
theorem build_slots_spec (np nc player dm : Nat) : ∀ (idxs hand : List Nat),
    hand.length = (idxs.filter fun i => i / (nc / np) == player).length →
    ∃ sl : List Slot, build_slots np nc player dm idxs hand = some sl ∧
      sl.length = idxs.length ∧
      (∀ k i : Nat, idxs[k]? = some i → ∃ s : Slot, sl[k]? = some s ∧
        s.owner = i / (nc / np) ∧ s.dirty = false) ∧
      ((sl.filter fun s => s.owner == player).map fun s => s.possible) =
        hand.map card_mask ∧
      (∀ s ∈ sl, s.owner ≠ player → s.possible = dm) := by
  intro idxs
  induction idxs with
  | nil =>
    intro hand hlen
    simp only [List.filter_nil, List.length_nil] at hlen
    have : hand = [] := List.eq_nil_of_length_eq_zero hlen
    subst this
    exact ⟨[], rfl, rfl, fun k i h => by simp at h, rfl, fun s h => by cases h⟩
  | cons i idxs ih =>
    intro hand hlen
    rw [List.filter_cons] at hlen
    by_cases hown : i / (nc / np) = player
    · rw [if_pos (by simpa using hown)] at hlen
      cases hand with
      | nil => simp at hlen
      | cons c hand' =>
        obtain ⟨sl', hb, hl, hpos, hfil, hdm⟩ := ih hand' (by simpa using hlen)
        refine ⟨⟨card_mask c, i / (nc / np), false⟩ :: sl', ?_, ?_, ?_, ?_, ?_⟩
        · rw [build_slots, if_pos hown, hb]
          rfl
        · simp [hl]
        · intro k j hk
          cases k with
          | zero =>
            cases Option.some.inj (by simpa using hk)
            exact ⟨⟨card_mask c, i / (nc / np), false⟩, by simp, rfl, rfl⟩
          | succ m =>
            obtain ⟨s, hs1, hs2, hs3⟩ := hpos m j (by simpa using hk)
            exact ⟨s, by simpa using hs1, hs2, hs3⟩
        · rw [List.filter_cons, if_pos (by simpa using hown), List.map_cons, hfil]
          rfl
        · intro s hs hso
          rcases List.mem_cons.mp hs with rfl | hs'
          · exact absurd hown hso
          · exact hdm s hs' hso
    · rw [if_neg (by simpa using hown)] at hlen
      obtain ⟨sl', hb, hl, hpos, hfil, hdm⟩ := ih hand hlen
      refine ⟨⟨dm, i / (nc / np), false⟩ :: sl', ?_, ?_, ?_, ?_, ?_⟩
      · rw [build_slots.eq_def]
        dsimp only
        rw [if_neg hown, hb]
        rfl
      · simp [hl]
      · intro k j hk
        cases k with
        | zero =>
          cases Option.some.inj (by simpa using hk)
          exact ⟨⟨dm, i / (nc / np), false⟩, by simp, rfl, rfl⟩
        | succ m =>
          obtain ⟨s, hs1, hs2, hs3⟩ := hpos m j (by simpa using hk)
          exact ⟨s, by simpa using hs1, hs2, hs3⟩
      · rw [List.filter_cons, if_neg (by simpa using hown)]
        exact hfil
      · intro s hs hso
        rcases List.mem_cons.mp hs with rfl | hs'
        · rfl
        · exact hdm s hs' hso

theorem foldl_xor_testBit : ∀ (cards : List Nat) (acc j : Nat), cards.Nodup →
    (cards.foldl (fun a c => a ^^^ card_mask c) acc).testBit j =
      ((acc.testBit j).xor (decide (j ∈ cards)))
  | [], acc, j, _ => by simp
  | c :: cs, acc, j, hnd => by
    rw [List.foldl_cons,
      foldl_xor_testBit cs (acc ^^^ card_mask c) j (List.Nodup.of_cons hnd)]
    rw [Nat.testBit_xor, card_mask_eq_two_pow, Nat.testBit_two_pow]
    by_cases hj : j = c
    · subst hj
      have hnotin : j ∉ cs := (List.nodup_cons.mp hnd).1
      simp [hnotin]
    · simp [hj, Ne.symm hj]

/-- C9.  `Engine::init` with `N` players, `M` cards and owning player `p`:
when the hand has one card per slot of `p` (bucketed as `i / (M/N)`), init
succeeds with `M` slots; slot `i` has owner `i / (M/N)` and a clear dirty
flag; the slots owned by `p` carry exactly the hand cards' singleton masks
in hand order; every other slot carries `default_mask`, whose bits (for a
duplicate-free, in-range hand) are exactly the `M` cards minus the hand;
and with an empty hand (a non-self-aware observer) every slot carries the
all-cards mask. -/
theorem init_spec (np nc player : Nat) (cards : List Nat)
    (hcount : cards.length =
      ((List.range nc).filter fun i => i / (nc / np) == player).length)
    (hnd : cards.Nodup) (hrange : ∀ c ∈ cards, c < nc) :
    ∃ e : Engine, Engine.init np nc player cards = some e ∧
      e.slots.length = nc ∧
      (∀ i : Nat, i < nc → ∃ s : Slot, e.slots[i]? = some s ∧
        s.owner = i / (nc / np) ∧ s.dirty = false) ∧
      ((e.slots.filter fun s => s.owner == player).map fun s => s.possible) =
        cards.map card_mask ∧
      (∀ s ∈ e.slots, s.owner ≠ player → s.possible = default_mask nc cards) ∧
      (∀ j : Nat, (default_mask nc cards).testBit j =
        (decide (j < nc) && !decide (j ∈ cards))) ∧
      (cards = [] → ∀ s ∈ e.slots, s.possible = (1 <<< nc) - 1) := by
  obtain ⟨sl, hb, hl, hpos, hfil, hdm⟩ :=
    build_slots_spec np nc player (default_mask nc cards) (List.range nc)
      cards hcount
  refine ⟨⟨np, nc, player, sl, EventRequest.none⟩, ?_, ?_, ?_, hfil, hdm, ?_, ?_⟩
  · rw [Engine.init, hb]
    rfl
  · simpa using hl
  · intro i hi
    exact hpos i i (List.getElem?_range hi)
  · intro j
    rw [default_mask, foldl_xor_testBit cards _ j hnd]
    have h1 : ((1 <<< nc) - 1 : Nat).testBit j = decide (j < nc) := by
      rw [Nat.one_shiftLeft]
      exact Nat.testBit_two_pow_sub_one nc j
    rw [h1]
    by_cases hj : j ∈ cards
    · simp [hj, hrange j hj]
    · simp [hj]
  · intro hcn s hs
    subst hcn
    by_cases hso : s.owner = player
    · exfalso
      have hmem : s ∈ sl.filter fun s => s.owner == player :=
        List.mem_filter.mpr ⟨hs, by simpa using hso⟩
      rw [show sl.filter (fun s => s.owner == player) = [] from ?_] at hmem
      · cases hmem
      · have := hfil
        simp only [List.map_nil] at this
        exact List.map_eq_nil_iff.mp this
    · have := hdm s hs hso
      rw [this, default_mask]
      rfl

/-- Witness for C9: a self-aware two-player four-card engine and a
non-self-aware observer both initialize successfully. -/
theorem init_spec_witness :
    (Engine.init 2 4 0 [2, 0]).isSome = true ∧
    (Engine.init 2 4 2 []).isSome = true := by
  constructor
  · obtain ⟨e, he, _⟩ := init_spec 2 4 0 [2, 0] (by decide) (by decide) (by decide)
    rw [he]
    rfl
  · obtain ⟨e, he, _⟩ := init_spec 2 4 2 [] (by decide) (by decide) (by decide)
    rw [he]
    rfl

/-! ## Claim C10: the ask-phase denominator is never zero under coverage -/

theorem foldl_or_testBit (P : Slot → Prop) [DecidablePred P] :
    ∀ (l : List Slot) (a j : Nat),
    ((l.foldl (fun acc s => if P s then acc ||| s.possible else acc) a).testBit j
        = true) ↔
      (a.testBit j = true ∨ ∃ s ∈ l, P s ∧ s.possible.testBit j = true) := by
  intro l
  induction l with
  | nil => simp
  | cons s rest ih =>
    intro a j
    rw [List.foldl_cons, ih]
    by_cases hp : P s
    · rw [if_pos hp, Nat.testBit_or]
      constructor
      · rintro (h | h)
        · rcases Bool.or_eq_true_iff.mp h with h' | h'
          · exact Or.inl h'
          · exact Or.inr ⟨s, List.mem_cons_self _ _, hp, h'⟩
        · obtain ⟨t, ht, hpt, hbt⟩ := h
          exact Or.inr ⟨t, List.mem_cons_of_mem _ ht, hpt, hbt⟩
      · rintro (h | ⟨t, ht, hpt, hbt⟩)
        · exact Or.inl (by rw [h]; rfl)
        · rcases List.mem_cons.mp ht with rfl | ht'
          · exact Or.inl (by rw [hbt]; simp)
          · exact Or.inr ⟨t, ht', hpt, hbt⟩
    · rw [if_neg hp]
      constructor
      · rintro (h | ⟨t, ht, hpt, hbt⟩)
        · exact Or.inl h
        · exact Or.inr ⟨t, List.mem_cons_of_mem _ ht, hpt, hbt⟩
      · rintro (h | ⟨t, ht, hpt, hbt⟩)
        · exact Or.inl h
        · rcases List.mem_cons.mp ht with rfl | ht'
          · exact absurd hpt hp
          · exact Or.inr ⟨t, ht', hpt, hbt⟩

theorem owned_union_testBit (e : Engine) (j : Nat) :
    ((owned_union e).testBit j = true) ↔
      ∃ s ∈ e.slots, s.owner = e.player_idx ∧ s.possible.testBit j = true := by
  rw [owned_union, foldl_or_testBit (fun s => s.owner = e.player_idx)]
  simp

theorem counts_of_pos {slots : List Slot} {p c : Nat} {s : Slot}
    (hs : s ∈ slots) (hp : s.owner = p) (hb : s.possible.testBit c = true) :
    0 < counts_of slots p c := by
  rw [counts_of]
  refine List.countP_pos_iff.mpr ⟨s, hs, ?_⟩
  simp [hp, hb]

/-- C10.  In the ask phase of `update_request`, assume every slot's owner
is a valid player index and the coverage property that every card whose
book still intersects some slot (an undeclared card) is itself possible in
some slot.  Then every card passing the candidate filters — bit not in the
owner's `owned` union but `owned` meeting its book's mask — has a positive
denominator (the total count of slots containing it), so
`Ratio::new(counts[player][num], denominator[num])` never receives a zero
denominator and that panic branch is unreachable: the whole selection scan
returns normally (given that candidate ids stay below 54, where
`Card::book` is defined). -/
theorem denominator_pos (e : Engine) (coins : Nat → Bool)
    (hown : ∀ s ∈ e.slots, s.owner < e.num_players)
    (hcov : ∀ m : Nat, m < e.num_cards →
      (∃ s ∈ e.slots, s.possible &&& book_mask (book_of m) ≠ 0) →
      ∃ s ∈ e.slots, s.possible.testBit m = true)
    (h54 : ∀ num : Nat, num < e.num_cards →
      (owned_union e).testBit num = false → num < 54) :
    (∀ num : Nat, num < e.num_cards → (owned_union e).testBit num = false →
      (owned_union e) &&& book_mask (book_of num) ≠ 0 →
      0 < denominator_of e num) ∧
    (∃ st : AskState, outer_ask e coins (owned_union e) (List.range e.num_cards)
      ⟨EventRequest.none, Option.none, 0⟩ = some st) := by
  have key : ∀ num : Nat, num < e.num_cards →
      (owned_union e) &&& book_mask (book_of num) ≠ 0 →
      0 < denominator_of e num := by
    intro num hnum hbk
    obtain ⟨j, hj⟩ := Nat.ne_zero_implies_bit_true hbk
    rw [Nat.testBit_and] at hj
    have hoj : (owned_union e).testBit j = true := Bool.and_elim_left hj
    have hmj : (book_mask (book_of num)).testBit j = true := Bool.and_elim_right hj
    obtain ⟨t, ht, hto, htb⟩ := (owned_union_testBit e j).mp hoj
    have hint : t.possible &&& book_mask (book_of num) ≠ 0 := by
      intro h0
      have := congrArg (fun x => Nat.testBit x j) h0
      simp only [Nat.testBit_and, Nat.zero_testBit] at this
      rw [htb, hmj] at this
      exact absurd this (by simp)
    obtain ⟨u, hu, hub⟩ := hcov num hnum ⟨t, ht, hint⟩
    have := counts_of_pos hu rfl hub
    rw [denominator_of]
    have hmem : counts_of e.slots u.owner num ∈
        (List.range e.num_players).map fun p => counts_of e.slots p num :=
      List.mem_map.mpr ⟨u.owner, List.mem_range.mpr (hown u hu), rfl⟩
    have hle := List.single_le_sum (fun x _ => Nat.zero_le x) _ hmem
    omega
  refine ⟨fun num hnum _ => key num hnum, ?_⟩
  have inner_some : ∀ (num : Nat), denominator_of e num ≠ 0 →
      ∀ (ps : List Nat) (st : AskState),
      ∃ st' : AskState, inner_ask e coins num ps st = some st' := by
    intro num hd ps
    induction ps with
    | nil => exact fun st => ⟨st, rfl⟩
    | cons p ps ih =>
      intro st
      obtain ⟨req, obest, ci⟩ := st
      cases obest with
      | none =>
        rw [inner_ask, if_neg hd]
        split
        · exact ⟨_, rfl⟩
        · exact ih _
      | some b =>
        rw [inner_ask, if_neg hd]
        split
        · split
          · exact ⟨_, rfl⟩
          · exact ih _
        · split
          · split
            · split
              · exact ⟨_, rfl⟩
              · exact ih _
            · exact ih _
          · exact ih _
  have outer_some : ∀ (nums : List Nat) (st : AskState),
      (∀ num ∈ nums, num < e.num_cards) →
      ∃ st' : AskState, outer_ask e coins (owned_union e) nums st = some st' := by
    intro nums
    induction nums with
    | nil => exact fun st _ => ⟨st, rfl⟩
    | cons num rest ih =>
      intro st hin
      rw [outer_ask]
      by_cases hb1 : (owned_union e).testBit num
      · rw [if_pos hb1]
        exact ih st fun m hm => hin m (List.mem_cons_of_mem _ hm)
      · rw [if_neg hb1]
        have h54n : num < 54 := h54 num (hin num (List.mem_cons_self _ _))
          (by simpa using hb1)
        rw [if_neg (by omega)]
        by_cases hb2 : (owned_union e) &&& book_mask (book_of num) = 0
        · rw [if_pos hb2]
          exact ih st fun m hm => hin m (List.mem_cons_of_mem _ hm)
        · rw [if_neg hb2]
          obtain ⟨st1, hst1⟩ := inner_some num
            (key num (hin num (List.mem_cons_self _ _)) hb2).ne'
            (opp_players e) st
          rw [hst1, Option.some_bind]
          exact ih st1 fun m hm => hin m (List.mem_cons_of_mem _ hm)
  exact outer_some (List.range e.num_cards) ⟨EventRequest.none, Option.none, 0⟩
    fun m hm => List.mem_range.mp hm

/-- Witness for C10: a two-player six-card engine with coverage; card 3 is
a candidate with positive denominator and the selection scan returns. -/
theorem denominator_pos_witness :
    0 < denominator_of
      ⟨2, 6, 0, [⟨1, 0, false⟩, ⟨62, 1, false⟩], EventRequest.none⟩ 3 ∧
    (outer_ask ⟨2, 6, 0, [⟨1, 0, false⟩, ⟨62, 1, false⟩], EventRequest.none⟩
      (fun _ => false)
      (owned_union ⟨2, 6, 0, [⟨1, 0, false⟩, ⟨62, 1, false⟩], EventRequest.none⟩)
      (List.range 6) ⟨EventRequest.none, Option.none, 0⟩).isSome = true := by
  have h := denominator_pos
    ⟨2, 6, 0, [⟨1, 0, false⟩, ⟨62, 1, false⟩], EventRequest.none⟩
    (fun _ => false) (by decide) (by decide) (by decide)
  constructor
  · exact h.1 3 (by decide) (by decide) (by decide)
  · obtain ⟨st, hst⟩ := h.2
    rw [hst]
    rfl

/-! ## Claim C4: the declare branch of `update_request` -/

theorem find?_range'_first {p : Nat → Bool} : ∀ (n k b : Nat), k ≤ b → b < k + n →
    p b = true → (∀ j : Nat, k ≤ j → j < b → p j = false) →
    (List.range' k n).find? p = some b
  | 0, k, b, hkb, hbn, _, _ => by omega
  | n + 1, k, b, hkb, hbn, hpb, hmin => by
    rw [List.range'_succ, List.find?_cons]
    by_cases hk : k = b
    · subst hk
      rw [hpb]
    · rw [hmin k (Nat.le_refl k) (by omega)]
      exact find?_range'_first n (k + 1) b (by omega) (by omega) hpb
        fun j h1 h2 => hmin j (by omega) h2

theorem find?_range_first {p : Nat → Bool} {n b : Nat} (hb : b < n)
    (hpb : p b = true) (hmin : ∀ j : Nat, j < b → p j = false) :
    (List.range n).find? p = some b := by
  rw [List.range_eq_range']
  exact find?_range'_first n 0 b (Nat.zero_le b) (by omega) hpb
    fun j _ h2 => hmin j h2

/-- `insert_guess` on a keyed map: succeeds exactly on present keys,
updating only that key's set. -/
theorem insert_guess_keys {owner c : Nat} {F : Nat → Finset Nat} :
    ∀ {keys : List Nat}, keys.Nodup → owner ∈ keys →
    insert_guess (keys.map fun p => (p, F p)) owner c =
      some (keys.map fun p => (p, if p = owner then insert c (F p) else F p)) := by
  intro keys
  induction keys with
  | nil => intro _ h; cases h
  | cons k keys ih =>
    intro hnd hmem
    rw [List.map_cons, insert_guess, List.map_cons]
    by_cases hk : k = owner
    · rw [if_pos hk, if_pos hk]
      have hnotin : owner ∉ keys := hk ▸ (List.nodup_cons.mp hnd).1
      have : (keys.map fun p => (p, if p = owner then insert c (F p) else F p)) =
          keys.map fun p => (p, F p) := by
        refine List.map_congr_left fun p hp => ?_
        have hne : ¬p = owner := fun hpo => hnotin (by rw [← hpo]; exact hp)
        rw [if_neg hne]
      rw [this]
    · rw [if_neg hk, if_neg hk]
      have hmem' : owner ∈ keys := by
        rcases List.mem_cons.mp hmem with h | h
        · exact absurd h.symm hk
        · exact h
      rw [ih (List.Nodup.of_cons hnd) hmem']
      rfl

/-- The guess-map fold of the declare branch, over any suffix of slots
starting from a keyed accumulator. -/
theorem build_guessed_go (e : Engine) (bm : Nat) :
    ∀ (slots : List Slot) (keys : List Nat) (F : Nat → Finset Nat),
    keys.Nodup →
    (∀ p ∈ keys, p % 2 = e.player_idx % 2) →
    (∀ s ∈ slots, s.owner % 2 = e.player_idx % 2 → s.possible &&& bm ≠ 0 →
      s.owner ∈ keys) →
    slots.foldlM
      (fun gm s =>
        if s.owner % 2 = e.player_idx % 2 ∧ s.possible &&& bm ≠ 0 then
          insert_guess gm s.owner (ctz s.possible)
        else some gm)
      (keys.map fun p => (p, F p)) =
    some (keys.map fun p => (p, F p ∪
      ((slots.filter fun s => s.owner == p && s.possible &&& bm != 0).map
        fun s => ctz s.possible).toFinset)) := by
  intro slots
  induction slots with
  | nil =>
    intro keys F hnd hpar hin
    rw [List.foldlM]
    refine congrArg some (List.map_congr_left fun p hp => ?_)
    simp
  | cons s rest ih =>
    intro keys F hnd hpar hin
    rw [List.foldlM_cons]
    by_cases hc : s.owner % 2 = e.player_idx % 2 ∧ s.possible &&& bm ≠ 0
    · rw [if_pos hc,
        insert_guess_keys hnd (hin s (List.mem_cons_self _ _) hc.1 hc.2)]
      change List.foldlM _ (keys.map fun p =>
        (p, if p = s.owner then insert (ctz s.possible) (F p) else F p)) rest = _
      rw [ih keys _ hnd hpar fun t ht h1 h2 => hin t (List.mem_cons_of_mem _ ht) h1 h2]
      refine congrArg some (List.map_congr_left fun p hp => ?_)
      by_cases hps : p = s.owner
      · rw [if_pos hps]
        have : (s.owner == p && s.possible &&& bm != 0) = true := by
          simp [hps.symm, hc.2]
        rw [List.filter_cons, if_pos this, List.map_cons, List.toFinset_cons,
          Finset.union_insert, Finset.insert_union]
      · rw [if_neg hps]
        have : (s.owner == p && s.possible &&& bm != 0) = false := by
          simp
          intro h
          exact absurd h.symm hps
        rw [List.filter_cons, if_neg (by simp [this])]
    · rw [if_neg hc]
      change List.foldlM _ (keys.map fun p => (p, F p)) rest = _
      rw [ih keys F hnd hpar fun t ht h1 h2 => hin t (List.mem_cons_of_mem _ ht) h1 h2]
      refine congrArg some (List.map_congr_left fun p hp => ?_)
      have : (s.owner == p && s.possible &&& bm != 0) = false := by
        by_cases hps : s.owner = p
        · have h1 : s.owner % 2 = e.player_idx % 2 := hps ▸ hpar p hp
          have h2 : ¬s.possible &&& bm ≠ 0 := fun h => hc ⟨h1, h⟩
          simp [hps, show s.possible &&& bm = 0 by omega]
        · simp [hps]
      rw [List.filter_cons, if_neg (by simp [this])]

/-- C4.  When the union of the team's resolved singleton slots covers book
`b`'s mask and `b` is the first such book in enumeration order,
`update_request` emits exactly the declare decision for `b`: its guess map
has one entry per team player `p` holding, for every team slot of `p`
whose `possible` intersects the book mask, the slot's resolved card — the
card at the slot's lowest set bit (`possible.trailing_zeros()`), which is
the unique possibility for a singleton slot.  The function returns with
this declare decision, scanning no further book and performing no ask
selection (the slots and all other fields are untouched). -/
theorem declare_branch_spec (e : Engine) (b : Nat) (coins : Nat → Bool)
    (hb : b < 9)
    (hq : team_union e &&& book_mask b = book_mask b)
    (hmin : ∀ b' : Nat, b' < b → team_union e &&& book_mask b' ≠ book_mask b')
    (hown : ∀ s ∈ e.slots, s.owner % 2 = e.player_idx % 2 →
      s.possible &&& book_mask b ≠ 0 → s.owner < e.num_players) :
    update_request e coins = some ⟨e.num_players, e.num_cards, e.player_idx,
      e.slots, EventRequest.declare b
        ((team_players e).map fun p =>
          (p, ((e.slots.filter fun s =>
                s.owner == p && s.possible &&& book_mask b != 0).map
              fun s => ctz s.possible).toFinset))⟩ := by
  have hnd : (team_players e).Nodup :=
    List.Nodup.filter _ (List.nodup_range e.num_players)
  have hpar : ∀ p ∈ team_players e, p % 2 = e.player_idx % 2 := by
    intro p hp
    have := (List.mem_filter.mp hp).2
    simpa using this
  have hin : ∀ s ∈ e.slots, s.owner % 2 = e.player_idx % 2 →
      s.possible &&& book_mask b ≠ 0 → s.owner ∈ team_players e := by
    intro s hs h1 h2
    refine List.mem_filter.mpr ⟨List.mem_range.mpr (hown s hs h1 h2), by simpa using h1⟩
  have hbg : build_guessed e (book_mask b) =
      some ((team_players e).map fun p =>
        (p, ((e.slots.filter fun s =>
              s.owner == p && s.possible &&& book_mask b != 0).map
            fun s => ctz s.possible).toFinset)) := by
    rw [build_guessed]
    have h1 := build_guessed_go e (book_mask b) e.slots (team_players e)
      (fun _ => (∅ : Finset Nat)) hnd hpar hin
    refine Eq.trans h1 (congrArg some (List.map_congr_left fun p hp => ?_))
    rw [Finset.empty_union]
  rw [update_request,
    find?_range_first hb (by simp [hq]) (fun j hj => by simp [hmin j hj])]
  dsimp only
  rw [hbg]
  rfl

/-- Witness for C4: a fully resolved six-singleton team hand fires the
declare decision for book 0 with the six cards guessed under player 0. -/
theorem declare_branch_spec_witness :
    update_request ⟨2, 6, 0, [⟨1, 0, false⟩, ⟨2, 0, false⟩, ⟨4, 0, false⟩,
        ⟨8, 0, false⟩, ⟨16, 0, false⟩, ⟨32, 0, false⟩], EventRequest.none⟩
      (fun _ => false) =
    some ⟨2, 6, 0, [⟨1, 0, false⟩, ⟨2, 0, false⟩, ⟨4, 0, false⟩,
        ⟨8, 0, false⟩, ⟨16, 0, false⟩, ⟨32, 0, false⟩],
      EventRequest.declare 0 [(0, {0, 1, 2, 3, 4, 5})]⟩ := by
  have h := declare_branch_spec ⟨2, 6, 0, [⟨1, 0, false⟩, ⟨2, 0, false⟩,
      ⟨4, 0, false⟩, ⟨8, 0, false⟩, ⟨16, 0, false⟩, ⟨32, 0, false⟩],
      EventRequest.none⟩ 0 (fun _ => false) (by decide) (by decide)
    (fun b' hb' => absurd hb' (Nat.not_lt_zero b')) (by decide)
  exact h.trans (by decide)

/-! ## Claim C8: determinism of the ask decision under a unique maximum -/

theorem counts_le_denominator (e : Engine) {p : Nat} (hp : p < e.num_players)
    (c : Nat) : counts_of e.slots p c ≤ denominator_of e c := by
  rw [denominator_of]
  exact List.single_le_sum (fun x _ => Nat.zero_le x) _
    (List.mem_map.mpr ⟨p, List.mem_range.mpr hp, rfl⟩)

theorem opp_players_lt {e : Engine} {p : Nat} (hp : p ∈ opp_players e) :
    p < e.num_players :=
  List.mem_range.mp (List.mem_filter.mp hp).1

theorem chance_le_one (e : Engine) {num p : Nat} (hp : p < e.num_players)
    (hd : denominator_of e num ≠ 0) : chance_of e num p ≤ 1 := by
  rw [chance_of]
  rw [div_le_one (by exact_mod_cast Nat.pos_of_ne_zero hd)]
  exact_mod_cast counts_le_denominator e hp num

/-- Once the best ratio is the strict maximum, the player loop changes
nothing: every later pair loses the comparison and no coin is consumed. -/
theorem inner_post (e : Engine) (coins : Nat → Bool) (num : Nat)
    (hd : ¬denominator_of e num = 0) {M : Rat} {req : EventRequest} :
    ∀ (ps : List Nat) (ci : Nat), (∀ p ∈ ps, chance_of e num p < M) →
    inner_ask e coins num ps ⟨req, some M, ci⟩ = some ⟨req, some M, ci⟩
  | [], ci, _ => rfl
  | p :: ps, ci, hlt => by
    rw [inner_ask, if_neg hd,
      if_neg (not_lt_of_gt (hlt p (List.mem_cons_self _ _))),
      if_neg (ne_of_lt (hlt p (List.mem_cons_self _ _)))]
    exact inner_post e coins num hd ps ci
      fun q hq => hlt q (List.mem_cons_of_mem _ hq)

/-- While every scanned ratio is below the maximum, the best stays below
the maximum (whatever the coins say). -/
theorem inner_pre (e : Engine) (coins : Nat → Bool) (num : Nat)
    (hd : ¬denominator_of e num = 0) {M : Rat} :
    ∀ (ps : List Nat) (st : AskState), (∀ p ∈ ps, chance_of e num p < M) →
    (st.best = Option.none ∨ ∃ r : Rat, st.best = some r ∧ r < M) →
    ∃ st' : AskState, inner_ask e coins num ps st = some st' ∧
      (st'.best = Option.none ∨ ∃ r : Rat, st'.best = some r ∧ r < M)
  | [], st, _, hpre => ⟨st, rfl, hpre⟩
  | p :: ps, ⟨req, obest, ci⟩, hlt, hpre => by
    have hltp := hlt p (List.mem_cons_self _ _)
    have hlt' : ∀ q ∈ ps, chance_of e num q < M :=
      fun q hq => hlt q (List.mem_cons_of_mem _ hq)
    cases obest with
    | none =>
      rw [inner_ask, if_neg hd]
      split
      · exact ⟨_, rfl, Or.inr ⟨_, rfl, hltp⟩⟩
      · exact inner_pre e coins num hd ps _ hlt' (Or.inr ⟨_, rfl, hltp⟩)
    | some b =>
      have hbM : b < M := by
        rcases hpre with h | ⟨r, hr, hrM⟩
        · simp at h
        · cases Option.some.inj hr
          exact hrM
      rw [inner_ask, if_neg hd]
      split
      · split
        · exact ⟨_, rfl, Or.inr ⟨_, rfl, hltp⟩⟩
        · exact inner_pre e coins num hd ps _ hlt' (Or.inr ⟨_, rfl, hltp⟩)
      · split
        · split
          · split
            · exact ⟨_, rfl, Or.inr ⟨_, rfl, hltp⟩⟩
            · exact inner_pre e coins num hd ps _ hlt' (Or.inr ⟨_, rfl, hltp⟩)
          · exact inner_pre e coins num hd ps _ hlt' (Or.inr ⟨_, rfl, hbM⟩)
        · exact inner_pre e coins num hd ps _ hlt' (Or.inr ⟨_, rfl, hbM⟩)

/-- On the maximum pair's card, the scan ends with the maximum pair as the
request, regardless of the coins. -/
theorem inner_max (e : Engine) (coins : Nat → Bool) (nstar pstar : Nat)
    (hd : ¬denominator_of e nstar = 0)
    (hM1 : chance_of e nstar pstar ≤ 1) :
    ∀ (ps : List Nat) (st : AskState), ps.Nodup → pstar ∈ ps →
    (∀ p ∈ ps, p ≠ pstar → chance_of e nstar p < chance_of e nstar pstar) →
    (st.best = Option.none ∨
      ∃ r : Rat, st.best = some r ∧ r < chance_of e nstar pstar) →
    ∃ ci : Nat, inner_ask e coins nstar ps st =
      some ⟨EventRequest.ask pstar nstar, some (chance_of e nstar pstar), ci⟩
  | [], st, _, hmem, _, _ => absurd hmem (List.not_mem_nil pstar)
  | p :: ps, ⟨req, obest, ci⟩, hnd, hmem, hlt, hpre => by
    by_cases hp : p = pstar
    · subst hp
      have hnotin : p ∉ ps := (List.nodup_cons.mp hnd).1
      have hrest : ∀ q ∈ ps, chance_of e nstar q < chance_of e nstar p :=
        fun q hq => hlt q (List.mem_cons_of_mem _ hq)
          fun hqp => hnotin (hqp ▸ hq)
      cases obest with
      | none =>
        rw [inner_ask, if_neg hd]
        split
        · exact ⟨ci, rfl⟩
        · exact ⟨ci, inner_post e coins nstar hd ps ci hrest⟩
      | some b =>
        have hbM : b < chance_of e nstar p := by
          rcases hpre with h | ⟨r, hr, hrM⟩
          · simp at h
          · cases Option.some.inj hr
            exact hrM
        rw [inner_ask, if_neg hd, if_pos hbM]
        split
        · exact ⟨ci, rfl⟩
        · exact ⟨ci, inner_post e coins nstar hd ps ci hrest⟩
    · have hltp : chance_of e nstar p < chance_of e nstar pstar :=
        hlt p (List.mem_cons_self _ _) hp
      have hne1 : ¬chance_of e nstar p = 1 :=
        ne_of_lt (lt_of_lt_of_le hltp hM1)
      have hmem' : pstar ∈ ps := by
        rcases List.mem_cons.mp hmem with h | h
        · exact absurd h.symm hp
        · exact h
      have hnd' : ps.Nodup := List.Nodup.of_cons hnd
      have hlt' : ∀ q ∈ ps, q ≠ pstar →
          chance_of e nstar q < chance_of e nstar pstar :=
        fun q hq => hlt q (List.mem_cons_of_mem _ hq)
      cases obest with
      | none =>
        rw [inner_ask, if_neg hd, if_neg hne1]
        exact inner_max e coins nstar pstar hd hM1 ps _ hnd' hmem' hlt'
          (Or.inr ⟨_, rfl, hltp⟩)
      | some b =>
        have hbM : b < chance_of e nstar pstar := by
          rcases hpre with h | ⟨r, hr, hrM⟩
          · simp at h
          · cases Option.some.inj hr
            exact hrM
        rw [inner_ask, if_neg hd]
        by_cases hb : b < chance_of e nstar p
        · rw [if_pos hb, if_neg hne1]
          exact inner_max e coins nstar pstar hd hM1 ps _ hnd' hmem' hlt'
            (Or.inr ⟨_, rfl, hltp⟩)
        · rw [if_neg hb]
          by_cases heq : chance_of e nstar p = b
          · rw [if_pos heq]
            by_cases hco : coins ci = true
            · rw [if_pos hco, if_neg hne1]
              exact inner_max e coins nstar pstar hd hM1 ps _ hnd' hmem' hlt'
                (Or.inr ⟨_, rfl, hltp⟩)
            · rw [if_neg hco]
              exact inner_max e coins nstar pstar hd hM1 ps _ hnd' hmem' hlt'
                (Or.inr ⟨_, rfl, hbM⟩)
          · rw [if_neg heq]
            exact inner_max e coins nstar pstar hd hM1 ps _ hnd' hmem' hlt'
              (Or.inr ⟨_, rfl, hbM⟩)

theorem opp_players_nodup (e : Engine) : (opp_players e).Nodup :=
  List.Nodup.filter _ (List.nodup_range e.num_players)

/-- Once the best ratio is the strict maximum, the card loop changes
nothing: every later card is skipped or its whole player scan loses. -/
theorem outer_post (e : Engine) (coins : Nat → Bool) (owned : Nat)
    {M : Rat} {req : EventRequest} :
    ∀ (nums : List Nat) (ci : Nat),
    (∀ num ∈ nums, owned.testBit num = false → num < 54) →
    (∀ num ∈ nums, owned.testBit num = false →
      ¬owned &&& book_mask (book_of num) = 0 → ¬denominator_of e num = 0) →
    (∀ num ∈ nums, owned.testBit num = false →
      ¬owned &&& book_mask (book_of num) = 0 →
      ∀ p ∈ opp_players e, chance_of e num p < M) →
    outer_ask e coins owned nums ⟨req, some M, ci⟩ = some ⟨req, some M, ci⟩
  | [], ci, _, _, _ => rfl
  | num :: rest, ci, h54, hden, hlt => by
    have h54' : ∀ n ∈ rest, owned.testBit n = false → n < 54 :=
      fun n hn => h54 n (List.mem_cons_of_mem _ hn)
    have hden' : ∀ n ∈ rest, owned.testBit n = false →
        ¬owned &&& book_mask (book_of n) = 0 → ¬denominator_of e n = 0 :=
      fun n hn => hden n (List.mem_cons_of_mem _ hn)
    have hlt' : ∀ n ∈ rest, owned.testBit n = false →
        ¬owned &&& book_mask (book_of n) = 0 →
        ∀ p ∈ opp_players e, chance_of e n p < M :=
      fun n hn => hlt n (List.mem_cons_of_mem _ hn)
    by_cases hb : owned.testBit num = true
    · rw [outer_ask, if_pos hb]
      exact outer_post e coins owned rest ci h54' hden' hlt'
    · have hb' : owned.testBit num = false := Bool.eq_false_iff.mpr hb
      have h54n : ¬54 ≤ num :=
        Nat.not_le.mpr (h54 num (List.mem_cons_self _ _) hb')
      rw [outer_ask, if_neg hb, if_neg h54n]
      by_cases hm : owned &&& book_mask (book_of num) = 0
      · rw [if_pos hm]
        exact outer_post e coins owned rest ci h54' hden' hlt'
      · rw [if_neg hm,
          inner_post e coins num (hden num (List.mem_cons_self _ _) hb' hm)
            (opp_players e) ci
            (hlt num (List.mem_cons_self _ _) hb' hm),
          Option.some_bind]
        exact outer_post e coins owned rest ci h54' hden' hlt'

/-- The card loop, run over a duplicate-free card list containing the
unique-maximum card, ends with the maximum pair selected — for every coin
stream. -/
theorem outer_main (e : Engine) (coins : Nat → Bool) (owned : Nat)
    (nstar pstar : Nat)
    (hM1 : chance_of e nstar pstar ≤ 1)
    (hp_mem : pstar ∈ opp_players e)
    (hskip1 : owned.testBit nstar = false)
    (hskip2 : ¬owned &&& book_mask (book_of nstar) = 0) :
    ∀ (nums : List Nat), nums.Nodup → nstar ∈ nums →
    (∀ num ∈ nums, owned.testBit num = false → num < 54) →
    (∀ num ∈ nums, owned.testBit num = false →
      ¬owned &&& book_mask (book_of num) = 0 → ¬denominator_of e num = 0) →
    (∀ num ∈ nums, owned.testBit num = false →
      ¬owned &&& book_mask (book_of num) = 0 →
      ∀ p ∈ opp_players e, ¬(num = nstar ∧ p = pstar) →
        chance_of e num p < chance_of e nstar pstar) →
    ∀ st : AskState,
    (st.best = Option.none ∨
      ∃ r : Rat, st.best = some r ∧ r < chance_of e nstar pstar) →
    ∃ ci : Nat, outer_ask e coins owned nums st =
      some ⟨EventRequest.ask pstar nstar, some (chance_of e nstar pstar), ci⟩
  | [], _, hmem, _, _, _, _, _ => absurd hmem (List.not_mem_nil nstar)
  | num :: rest, hnd, hmem, h54, hden, hlt, st, hpre => by
    have hnd' : rest.Nodup := List.Nodup.of_cons hnd
    have h54' : ∀ n ∈ rest, owned.testBit n = false → n < 54 :=
      fun n hn => h54 n (List.mem_cons_of_mem _ hn)
    have hden' : ∀ n ∈ rest, owned.testBit n = false →
        ¬owned &&& book_mask (book_of n) = 0 → ¬denominator_of e n = 0 :=
      fun n hn => hden n (List.mem_cons_of_mem _ hn)
    have hlt' : ∀ n ∈ rest, owned.testBit n = false →
        ¬owned &&& book_mask (book_of n) = 0 →
        ∀ p ∈ opp_players e, ¬(n = nstar ∧ p = pstar) →
          chance_of e n p < chance_of e nstar pstar :=
      fun n hn => hlt n (List.mem_cons_of_mem _ hn)
    by_cases hnum : num = nstar
    · subst hnum
      have hnotin : num ∉ rest := (List.nodup_cons.mp hnd).1
      have hd : ¬denominator_of e num = 0 :=
        hden num (List.mem_cons_self _ _) hskip1 hskip2
      have h54n : ¬54 ≤ num :=
        Nat.not_le.mpr (h54 num (List.mem_cons_self _ _) hskip1)
      have hb : ¬owned.testBit num = true := by rw [hskip1]; exact Bool.false_ne_true
      rw [outer_ask, if_neg hb, if_neg h54n, if_neg hskip2]
      have hmax : ∀ p ∈ opp_players e, p ≠ pstar →
          chance_of e num p < chance_of e num pstar :=
        fun p hp hne => hlt num (List.mem_cons_self _ _) hskip1 hskip2 p hp
          fun h => hne h.2
      obtain ⟨ci, hinner⟩ := inner_max e coins num pstar hd hM1
        (opp_players e) st (opp_players_nodup e) hp_mem hmax hpre
      rw [hinner, Option.some_bind]
      refine ⟨ci, outer_post e coins owned rest ci h54' hden' ?_⟩
      intro n hn hb' hm p hp
      exact hlt' n hn hb' hm p hp fun h => hnotin (h.1 ▸ hn)
    · have hmem' : nstar ∈ rest := by
        rcases List.mem_cons.mp hmem with h | h
        · exact absurd h.symm hnum
        · exact h
      by_cases hb : owned.testBit num = true
      · rw [outer_ask, if_pos hb]
        exact outer_main e coins owned nstar pstar hM1 hp_mem hskip1 hskip2
          rest hnd' hmem' h54' hden' hlt' st hpre
      · have hb' : owned.testBit num = false := Bool.eq_false_iff.mpr hb
        have h54n : ¬54 ≤ num :=
          Nat.not_le.mpr (h54 num (List.mem_cons_self _ _) hb')
        rw [outer_ask, if_neg hb, if_neg h54n]
        by_cases hm : owned &&& book_mask (book_of num) = 0
        · rw [if_pos hm]
          exact outer_main e coins owned nstar pstar hM1 hp_mem hskip1 hskip2
            rest hnd' hmem' h54' hden' hlt' st hpre
        · rw [if_neg hm]
          have hd : ¬denominator_of e num = 0 :=
            hden num (List.mem_cons_self _ _) hb' hm
          have hltn : ∀ p ∈ opp_players e,
              chance_of e num p < chance_of e nstar pstar :=
            fun p hp => hlt num (List.mem_cons_self _ _) hb' hm p hp
              fun h => hnum h.1
          obtain ⟨st', hinner, hpre'⟩ :=
            inner_pre e coins num hd (opp_players e) st hltn hpre
          rw [hinner, Option.some_bind]
          exact outer_main e coins owned nstar pstar hM1 hp_mem hskip1 hskip2
            rest hnd' hmem' h54' hden' hlt' st' hpre'

/-- C8: when the candidate (opposing player, card) pairs scanned by the ask
selection have a unique maximum probability ratio, `update_request` emits
the Ask decision for that maximum pair under EVERY coin stream — the random
tie-break can never change which pair is selected, so the outcome is
deterministic and reproducible across runs on the same state. -/
theorem ask_deterministic (e : Engine) (nstar pstar : Nat)
    (hnb : (List.range 9).find?
      (fun b => team_union e &&& book_mask b == book_mask b) = Option.none)
    (hn_lt : nstar < e.num_cards)
    (hskip1 : (owned_union e).testBit nstar = false)
    (hskip2 : ¬owned_union e &&& book_mask (book_of nstar) = 0)
    (hp_mem : pstar ∈ opp_players e)
    (h54 : ∀ num, num < e.num_cards →
      (owned_union e).testBit num = false → num < 54)
    (hden : ∀ num, num < e.num_cards →
      (owned_union e).testBit num = false →
      ¬owned_union e &&& book_mask (book_of num) = 0 →
      ¬denominator_of e num = 0)
    (huniq : ∀ num, num < e.num_cards →
      (owned_union e).testBit num = false →
      ¬owned_union e &&& book_mask (book_of num) = 0 →
      ∀ p ∈ opp_players e, ¬(num = nstar ∧ p = pstar) →
        chance_of e num p < chance_of e nstar pstar)
    (coins : Nat → Bool) :
    update_request e coins =
      some { e with request := EventRequest.ask pstar nstar } := by
  have hM1 : chance_of e nstar pstar ≤ 1 :=
    chance_le_one e (opp_players_lt hp_mem) (hden nstar hn_lt hskip1 hskip2)
  obtain ⟨ci, hout⟩ := outer_main e coins (owned_union e) nstar pstar hM1
    hp_mem hskip1 hskip2 (List.range e.num_cards)
    (List.nodup_range e.num_cards) (List.mem_range.mpr hn_lt)
    (fun n hn => h54 n (List.mem_range.mp hn))
    (fun n hn => hden n (List.mem_range.mp hn))
    (fun n hn => huniq n (List.mem_range.mp hn))
    ⟨EventRequest.none, Option.none, 0⟩ (Or.inl rfl)
  rw [update_request, hnb]
  rw [hout]
  rfl

/-- Concrete check of `ask_deterministic`: on a two-player engine whose only
candidate pair is (player 1, card 1) with ratio one, both the all-false and
the all-true coin streams produce the same Ask decision. -/
theorem ask_deterministic_witness :
    update_request
        ⟨2, 6, 0, [⟨1, 0, false⟩, ⟨60, 0, false⟩, ⟨2, 1, false⟩],
          EventRequest.none⟩ (fun _ => false) =
      some ⟨2, 6, 0, [⟨1, 0, false⟩, ⟨60, 0, false⟩, ⟨2, 1, false⟩],
        EventRequest.ask 1 1⟩ ∧
    update_request
        ⟨2, 6, 0, [⟨1, 0, false⟩, ⟨60, 0, false⟩, ⟨2, 1, false⟩],
          EventRequest.none⟩ (fun _ => true) =
      some ⟨2, 6, 0, [⟨1, 0, false⟩, ⟨60, 0, false⟩, ⟨2, 1, false⟩],
        EventRequest.ask 1 1⟩ :=
  ⟨ask_deterministic
      ⟨2, 6, 0, [⟨1, 0, false⟩, ⟨60, 0, false⟩, ⟨2, 1, false⟩],
        EventRequest.none⟩ 1 1
      (by decide) (by decide) (by decide) (by decide) (by decide)
      (by decide) (by decide) (by decide) (fun _ => false),
    ask_deterministic
      ⟨2, 6, 0, [⟨1, 0, false⟩, ⟨60, 0, false⟩, ⟨2, 1, false⟩],
        EventRequest.none⟩ 1 1
      (by decide) (by decide) (by decide) (by decide) (by decide)
      (by decide) (by decide) (by decide) (fun _ => true)⟩

end Fish
